import Mathlib

/-!
Verification development for the Nebius field-mask engine
(`nebius/base/fieldmask.py` and `nebius/base/fieldmask_parser.py`).

Masks are trees with an optional wildcard branch (`any`) and an
insertion-ordered association list of named children (`field_parts`,
a Python `dict` in the source, so keys are unique and insertion order
is preserved).  `FieldKey` is a `str` subclass; we model it as `String`.
-/

namespace Fieldmask

abbrev FieldKey := String

/-- Tree representation of a field mask (`class Mask` in `fieldmask.py`).
`any` is the optional wildcard branch, `field_parts` the named children
(Python `dict[FieldKey, Mask]`, modelled as an insertion-ordered
association list with unique keys). -/
inductive Mask where
  | mk (any : Option Mask) (field_parts : List (FieldKey × Mask))
deriving Inhabited

namespace Mask

/-- Projection of the wildcard branch. -/
def any : Mask → Option Mask
  | .mk a _ => a

/-- Projection of the named children. -/
def field_parts : Mask → List (FieldKey × Mask)
  | .mk _ fp => fp

/-- `Mask.is_empty`: true iff no wildcard and no field parts. -/
def is_empty : Mask → Bool
  | .mk none [] => true
  | .mk (some _) _ => false
  | .mk none (_ :: _) => false

/-- Python `k in d` / `d[k]` on the `field_parts` dict: first binding wins
(keys are unique in masks built by the code). -/
def lookupFP : List (FieldKey × Mask) → FieldKey → Option Mask
  | [], _ => none
  | (k', v) :: rest, k => if k' = k then some v else lookupFP rest k

theorem sizeOf_lookupFP {fp : List (FieldKey × Mask)} {k : FieldKey} {v : Mask}
    (h : lookupFP fp k = some v) : sizeOf v < sizeOf fp := by
  induction fp with
  | nil => simp [lookupFP] at h
  | cons hd tl ih =>
    obtain ⟨k', v'⟩ := hd
    simp only [lookupFP] at h
    split at h
    · cases h
      simp
      omega
    · have := ih h
      simp
      omega

theorem sizeOf_head_fp {k : FieldKey} {v : Mask} {rest : List (FieldKey × Mask)} :
    sizeOf v < sizeOf ((k, v) :: rest) := by
  simp
  omega

end Mask

/-! ## String / regex / JSON utilities used by the Python code

`_simple_string_pattern`, `json.dumps`, `json.loads` (for string
documents), and Python string comparison. -/

/-- A character of the class `[a-zA-Z0-9_]`. -/
def isSimpleChar (c : Char) : Bool :=
  ('a' ≤ c && c ≤ 'z') || ('A' ≤ c && c ≤ 'Z') || ('0' ≤ c && c ≤ '9') || c = '_'

/-- Python `_simple_string_pattern.match(s) is not None` where the pattern is
`re.compile("^[a-zA-Z0-9_]+$")`.  Without `re.MULTILINE`, Python's `$`
matches at the very end of the string and also just before a single
trailing newline, so the pattern accepts both `body` and `body ++ "\n"`
for a non-empty `body` of simple characters. -/
def pysimple (cs : List Char) : Bool :=
  let body := if cs.getLast? = some '\n' then cs.dropLast else cs
  !body.isEmpty && body.all isSimpleChar

/-- `pysimple` on a `String`. -/
def pysimpleStr (s : String) : Bool := pysimple s.data

/-- Python `s.startswith('"')`. -/
def startsWithQuote (s : String) : Bool :=
  match s.data with
  | '"' :: _ => true
  | _ => false

/-- Lexicographic `≤` on character lists by code point: Python's `str`
comparison, used by `sorted` in `Mask._marshal`. -/
def strLe : List Char → List Char → Bool
  | [], _ => true
  | _ :: _, [] => false
  | c :: cs, d :: ds => if c = d then strLe cs ds else decide (c < d)

/-- Python `a <= b` on strings (code-point lexicographic). -/
def strLeB (a b : String) : Bool := strLe a.data b.data

/-- Lowercase hex digit, as produced by Python's `"%04x"` formatting. -/
def hexDigit (n : Nat) : Char :=
  if n < 10 then Char.ofNat (48 + n) else Char.ofNat (87 + n)

/-- Four lowercase hex digits of `n < 0x10000`. -/
def hex4 (n : Nat) : List Char :=
  [hexDigit (n / 4096 % 16), hexDigit (n / 256 % 16), hexDigit (n / 16 % 16), hexDigit (n % 16)]

/-- How `json.dumps` with the default `ensure_ascii=True` renders one
character inside a string literal: named escapes for `"` `\` and the
usual control characters, `\u00xx` for other control characters,
printable ASCII verbatim, and `\uXXXX` (with surrogate pairs above
0xFFFF) for everything non-ASCII. -/
def dumpAsciiChar (c : Char) : List Char :=
  if c = '"' then ['\\', '"']
  else if c = '\\' then ['\\', '\\']
  else if c = '\n' then ['\\', 'n']
  else if c = '\r' then ['\\', 'r']
  else if c = '\t' then ['\\', 't']
  else if c.toNat = 8 then ['\\', 'b']
  else if c.toNat = 12 then ['\\', 'f']
  else if 0x20 ≤ c.toNat && c.toNat ≤ 0x7e then [c]
  else if c.toNat < 0x10000 then '\\' :: 'u' :: hex4 c.toNat
  else
    let v := c.toNat - 0x10000
    ('\\' :: 'u' :: hex4 (0xd800 + v / 1024)) ++ ('\\' :: 'u' :: hex4 (0xdc00 + v % 1024))

/-- How `json.dumps` with `ensure_ascii=False` renders one character:
only `"` `\` and control characters are escaped. -/
def dumpRawChar (c : Char) : List Char :=
  if c = '"' then ['\\', '"']
  else if c = '\\' then ['\\', '\\']
  else if c = '\n' then ['\\', 'n']
  else if c = '\r' then ['\\', 'r']
  else if c = '\t' then ['\\', 't']
  else if c.toNat = 8 then ['\\', 'b']
  else if c.toNat = 12 then ['\\', 'f']
  else if c.toNat < 0x20 then '\\' :: 'u' :: hex4 c.toNat
  else [c]

/-- Concatenate the per-character renderings. -/
def dumpChars (f : Char → List Char) : List Char → List Char
  | [] => []
  | c :: rest => f c ++ dumpChars f rest

/-- `json.dumps(s)` (default `ensure_ascii=True`) on a string. -/
def jsonDumpsAsciiList (cs : List Char) : List Char :=
  '"' :: dumpChars dumpAsciiChar cs ++ ['"']

/-- `json.dumps(s)` on a `String`. -/
def jsonDumpsAscii (s : String) : String := String.mk (jsonDumpsAsciiList s.data)

/-- `json.dumps(s, ensure_ascii=False)` on a string. -/
def jsonDumpsRawList (cs : List Char) : List Char :=
  '"' :: dumpChars dumpRawChar cs ++ ['"']

/-- JSON whitespace accepted around a document by `json.loads`. -/
def jsonWS (c : Char) : Bool := c = ' ' || c = '\t' || c = '\n' || c = '\r'

/-- Value of one hex digit (either case), as accepted by `\uXXXX` escapes. -/
def hexVal (c : Char) : Option Nat :=
  if '0' ≤ c && c ≤ '9' then some (c.toNat - 48)
  else if 'a' ≤ c && c ≤ 'f' then some (c.toNat - 87)
  else if 'A' ≤ c && c ≤ 'F' then some (c.toNat - 55)
  else none

/-- Body scanner of `json.loads` for a string literal (Python
`py_scanstring`, strict mode): input is the text after the opening
quote; returns the decoded content and the rest after the closing
quote.  Surrogate pairs are combined; a lone surrogate, which Python
would keep as an unpaired surrogate code unit in the resulting `str`,
is not representable as a Lean `String` and is reported as an error. -/
def scanJsonString : List Char → List Char → Except String (List Char × List Char)
  | [], _ => .error "Unterminated string starting at"
  | '"' :: rest, acc => .ok (acc.reverse, rest)
  | '\\' :: 'u' :: a :: b :: c :: d :: r3, acc =>
      (match hexVal a, hexVal b, hexVal c, hexVal d with
       | some ha, some hb, some hc, some hd =>
          let uni := ha * 4096 + hb * 256 + hc * 16 + hd
          if 0xd800 ≤ uni && uni ≤ 0xdbff then
            match r3 with
            | '\\' :: 'u' :: e :: f :: g :: h :: r4 =>
                (match hexVal e, hexVal f, hexVal g, hexVal h with
                 | some he, some hf, some hg, some hh =>
                    let uni2 := he * 4096 + hf * 256 + hg * 16 + hh
                    if 0xdc00 ≤ uni2 && uni2 ≤ 0xdfff then
                      scanJsonString r4
                        (Char.ofNat (0x10000 + (uni - 0xd800) * 1024 + (uni2 - 0xdc00)) :: acc)
                    else .error "lone surrogate (unrepresentable as Lean String)"
                 | _, _, _, _ => .error "Invalid \\uXXXX escape")
            | _ => .error "lone surrogate (unrepresentable as Lean String)"
          else if 0xdc00 ≤ uni && uni ≤ 0xdfff then
            .error "lone surrogate (unrepresentable as Lean String)"
          else scanJsonString r3 (Char.ofNat uni :: acc)
       | _, _, _, _ => .error "Invalid \\uXXXX escape")
  | '\\' :: e :: rest, acc =>
      if e = '"' then scanJsonString rest ('"' :: acc)
      else if e = '\\' then scanJsonString rest ('\\' :: acc)
      else if e = '/' then scanJsonString rest ('/' :: acc)
      else if e = 'b' then scanJsonString rest (Char.ofNat 8 :: acc)
      else if e = 'f' then scanJsonString rest (Char.ofNat 12 :: acc)
      else if e = 'n' then scanJsonString rest ('\n' :: acc)
      else if e = 'r' then scanJsonString rest ('\r' :: acc)
      else if e = 't' then scanJsonString rest ('\t' :: acc)
      else .error "Invalid \\escape"
  | ['\\'], _ => .error "Unterminated string starting at"
  | c :: rest, acc =>
      if c.toNat < 0x20 then .error "Invalid control character"
      else scanJsonString rest (c :: acc)

/-- `json.loads(s)` where the document is expected to be a single JSON
string literal (the only case the field-mask code uses): optional
whitespace, a string literal, optional whitespace, end of input. -/
def jsonLoadsDoc (cs : List Char) : Except String (List Char) :=
  match cs.dropWhile jsonWS with
  | '"' :: rest =>
      match scanJsonString rest [] with
      | .ok (content, rest2) =>
          if rest2.dropWhile jsonWS = [] then .ok content else .error "Extra data"
      | .error e => .error e
  | _ => .error "Expecting value"

namespace Mask

/-- Replace the value of the first binding of `k` (Python dict item
assignment for an existing key: position in insertion order is kept). -/
def updateFP (fp : List (FieldKey × Mask)) (k : FieldKey) (newv : Mask) :
    List (FieldKey × Mask) :=
  match fp with
  | [] => []
  | (k', v') :: rest => if k' = k then (k', newv) :: rest else (k', v') :: updateFP rest k newv

mutual
/-- `Mask.copy`: deep copy of the tree. -/
def copy : Mask → Mask
  | .mk none fp => .mk none (copyFields fp)
  | .mk (some x) fp => .mk (some (copy x)) (copyFields fp)
termination_by m => sizeOf m
decreasing_by all_goals (simp <;> omega)
/-- The `for k, v in self.field_parts.items()` loop of `Mask.copy`. -/
def copyFields : List (FieldKey × Mask) → List (FieldKey × Mask)
  | [] => []
  | (k, v) :: rest => (k, copy v) :: copyFields rest
termination_by fp => sizeOf fp
decreasing_by all_goals (simp <;> omega)
end

mutual
/-- `Mask.__iadd__` (merge).  The Python argument may be a `Mask`, a
`FieldPath` or `None`; the mask operations in this file only ever pass a
`Mask` or `None`, modelled as `Option Mask` (`none` = Python `None`). -/
def iadd : Mask → Option Mask → Mask
  | m, none => m
  | .mk a fp, some (.mk oa ofp) =>
    if (Mask.mk oa ofp).is_empty then .mk a fp
    else
      .mk (match a, oa with
           | some x, oa2 => some (iadd x oa2)
           | none, some y => some (copy y)
           | none, none => none)
          (iaddFields fp ofp)
termination_by _ o => sizeOf o
decreasing_by all_goals (simp <;> omega)
/-- The `for k, v in other.field_parts.items()` loop of `__iadd__`:
merge into an existing key in place, or append a copy as a new key. -/
def iaddFields : List (FieldKey × Mask) → List (FieldKey × Mask) → List (FieldKey × Mask)
  | fp, [] => fp
  | fp, (k, v) :: rest =>
      match lookupFP fp k with
      | some old => iaddFields (updateFP fp k (iadd old (some v))) rest
      | none => iaddFields (fp ++ [(k, copy v)]) rest
termination_by _ ofp => sizeOf ofp
decreasing_by all_goals (simp <;> omega)
end

/-- `ret.field_parts[k] += inner` / `ret.field_parts[k] = inner` in the
intersect methods: merge into the existing key or append. -/
def insertMergeRet (acc : List (FieldKey × Mask)) (k : FieldKey) (i : Mask) :
    List (FieldKey × Mask) :=
  match lookupFP acc k with
  | some old => updateFP acc k (iadd old (some i))
  | none => acc ++ [(k, i)]

mutual
/-- `Mask.intersect_reset_mask` (`&`): reset-mask intersection.  Returns
`none` when the argument is not a Mask (Python returns `None`). -/
def intersect_reset_mask : Mask → Option Mask → Option Mask
  | _, none => none
  | .mk a fp, some (.mk oa ofp) =>
      let part1 : Option Mask × List (FieldKey × Mask) :=
        match a with
        | some x => (intersect_reset_mask x oa, irmPhase1 x ofp)
        | none => (none, [])
      let acc2 :=
        match oa with
        | some y => irmPhase2 y fp part1.2
        | none => part1.2
      some (.mk part1.1 (irmPhase3 fp ofp acc2))
termination_by m o => sizeOf m + sizeOf o
decreasing_by all_goals (simp <;> omega)
/-- First loop of `intersect_reset_mask`: `self.any` against every named
key of `other`. -/
def irmPhase1 (x : Mask) : List (FieldKey × Mask) → List (FieldKey × Mask)
  | [] => []
  | (k, v) :: rest =>
      match intersect_reset_mask x (some v) with
      | some i => (k, i) :: irmPhase1 x rest
      | none => irmPhase1 x rest
termination_by l => sizeOf x + sizeOf l
decreasing_by all_goals (simp <;> omega)
/-- Second loop: `other.any` against every named key of `self`,
accumulated into `acc`. -/
def irmPhase2 (y : Mask) : List (FieldKey × Mask) → List (FieldKey × Mask) →
    List (FieldKey × Mask)
  | [], acc => acc
  | (k, v) :: rest, acc =>
      match intersect_reset_mask y (some v) with
      | some i => irmPhase2 y rest (insertMergeRet acc k i)
      | none => irmPhase2 y rest acc
termination_by l _ => sizeOf y + sizeOf l
decreasing_by all_goals (simp <;> omega)
/-- Third loop: named key against exactly matching named key. -/
def irmPhase3 : List (FieldKey × Mask) → List (FieldKey × Mask) →
    List (FieldKey × Mask) → List (FieldKey × Mask)
  | [], _, acc => acc
  | (k, v) :: rest, ofp, acc =>
      match h : lookupFP ofp k with
      | some w =>
          match intersect_reset_mask v (some w) with
          | some i => irmPhase3 rest ofp (insertMergeRet acc k i)
          | none => irmPhase3 rest ofp acc
      | none => irmPhase3 rest ofp acc
termination_by l ofp _ => sizeOf l + sizeOf ofp
decreasing_by
  all_goals simp
  all_goals (first
    | omega
    | (have hsz := sizeOf_lookupFP h; omega))
end

mutual
/-- `Mask.intersect_dumb` (`*`): simple intersection, no wildcard
promotion. -/
def intersect_dumb : Mask → Option Mask → Option Mask
  | _, none => none
  | .mk none fp, some (.mk _ ofp) => some (.mk none (idFields fp ofp))
  | .mk (some x) fp, some (.mk oa ofp) => some (.mk (intersect_dumb x oa) (idFields fp ofp))
termination_by m o => sizeOf m + sizeOf o
decreasing_by all_goals (simp <;> omega)
/-- The field loop of `intersect_dumb`. -/
def idFields : List (FieldKey × Mask) → List (FieldKey × Mask) → List (FieldKey × Mask)
  | [], _ => []
  | (k, v) :: rest, ofp =>
      match h : lookupFP ofp k with
      | some w =>
          match intersect_dumb v (some w) with
          | some i => (k, i) :: idFields rest ofp
          | none => idFields rest ofp
      | none => idFields rest ofp
termination_by l ofp => sizeOf l + sizeOf ofp
decreasing_by
  all_goals simp
  all_goals (first
    | omega
    | (have hsz := sizeOf_lookupFP h; omega))
end

mutual
/-- `Mask.subtract_dumb` (`/`): in-place in Python; modelled as
returning the new value of `self`.  A non-Mask argument (`none`) is a
silent no-op. -/
def subtract_dumb : Mask → Option Mask → Mask
  | m, none => m
  | .mk a fp, some (.mk oa ofp) =>
      .mk (match a, oa with
           | some x, some y =>
               let x' := subtract_dumb x (some y)
               if x'.is_empty then none else some x'
           | _, _ => a)
          (sdFields fp ofp)
termination_by m o => sizeOf m + sizeOf o
decreasing_by all_goals (simp <;> omega)
/-- The field loop of `subtract_dumb`: subtract under matching named
keys, deleting entries that become empty. -/
def sdFields : List (FieldKey × Mask) → List (FieldKey × Mask) → List (FieldKey × Mask)
  | [], _ => []
  | (k, v) :: rest, ofp =>
      match h : lookupFP ofp k with
      | some w =>
          let v' := subtract_dumb v (some w)
          if v'.is_empty then sdFields rest ofp else (k, v') :: sdFields rest ofp
      | none => (k, v) :: sdFields rest ofp
termination_by l ofp => sizeOf l + sizeOf ofp
decreasing_by
  all_goals simp
  all_goals (first
    | omega
    | (have hsz := sizeOf_lookupFP h; omega))
end

mutual
/-- `Mask.subtract_reset_mask` (`-`): in-place in Python; modelled as
returning the new value of `self`.  A non-Mask argument (`none`) is a
silent no-op. -/
def subtract_reset_mask : Mask → Option Mask → Mask
  | m, none => m
  | .mk a fp, some (.mk oa ofp) =>
      .mk (match a with
           | some x =>
               let x' := subtract_reset_mask x oa
               if x'.is_empty then none else some x'
           | none => none)
          (srmFields fp oa ofp)
termination_by m o => (sizeOf o, sizeOf m)
decreasing_by all_goals (simp; first | omega | (apply Prod.Lex.left; omega))
/-- The field loop of `subtract_reset_mask`: a key with no correspondent
in `other` is kept untouched; otherwise it is subtracted by `other.any`
and by `other`'s matching named key, and deleted if that leaves it
empty. -/
def srmFields : List (FieldKey × Mask) → Option Mask → List (FieldKey × Mask) →
    List (FieldKey × Mask)
  | [], _, _ => []
  | (k, v) :: rest, oa, ofp =>
      if oa.isNone && (lookupFP ofp k).isNone then
        (k, v) :: srmFields rest oa ofp
      else
        let v1 := match oa with
          | some y => subtract_reset_mask v (some y)
          | none => v
        let v2 := match h : lookupFP ofp k with
          | some w => subtract_reset_mask v1 (some w)
          | none => v1
        if v2.is_empty then srmFields rest oa ofp else (k, v2) :: srmFields rest oa ofp
termination_by l oa ofp => (sizeOf oa + sizeOf ofp, sizeOf l)
decreasing_by
  all_goals simp
  all_goals (first
    | (apply Prod.Lex.left
       first
        | omega
        | (have h1 : 1 ≤ sizeOf ofp := by cases ofp <;> simp
           omega)
        | (have h1 := sizeOf_lookupFP h
           have h2 : 1 ≤ sizeOf oa := by cases oa <;> simp
           omega))
    | (apply Prod.Lex.right; omega)
    | omega)
end

/-- The per-entry computation of `srmFields`: subtract by `other.any`
(when present), then by `other`'s exactly matching named key (when
present). -/
def srmEntry (v0 : Mask) (oa w? : Option Mask) : Mask :=
  let v1 := match oa with
    | some y => v0.subtract_reset_mask (some y)
    | none => v0
  match w? with
  | some w => v1.subtract_reset_mask (some w)
  | none => v1

mutual
/-- `Mask.__eq__`: recursive structural equality, key-set based on the
field parts (insertion order irrelevant). -/
def maskEq : Mask → Mask → Bool
  | .mk a fp, .mk a2 fp2 =>
      (match a, a2 with
       | none, none => true
       | some x, some y => maskEq x y
       | _, _ => false)
      && fp.length == fp2.length
      && meqFields fp fp2
termination_by m _ => sizeOf m
decreasing_by all_goals (simp <;> omega)
/-- The `for k, v in self.field_parts.items()` loop of `__eq__`. -/
def meqFields : List (FieldKey × Mask) → List (FieldKey × Mask) → Bool
  | [], _ => true
  | (k, v) :: rest, fp2 =>
      match lookupFP fp2 k with
      | none => false
      | some w => maskEq v w && meqFields rest fp2
termination_by l _ => sizeOf l
decreasing_by all_goals (simp <;> omega)
end

/-- `append_to_ret` inside `Mask._marshal`: serialize one branch from
its key text and the `(segment count, text)` of its sub-mask. -/
def appendEntry (key : String) (p : Nat × String) : String :=
  if p.2 = "" then key
  else if p.1 = 1 then key ++ "." ++ p.2
  else key ++ ".(" ++ p.2 ++ ")"

/-- `FieldKey.marshal`: the raw string when it matches the simple
pattern, its JSON-quoted form otherwise. -/
def keyMarshal (k : FieldKey) : String :=
  if pysimpleStr k then k else jsonDumpsAscii k

/-- Python `",".join(ret)`. -/
def joinComma : List String → String
  | [] => ""
  | [s] => s
  | s :: rest => s ++ "," ++ joinComma rest

mutual
/-- `Mask._marshal`: `(number of top-level segments, serialized text)`;
sibling branch texts are sorted before joining with commas. -/
def marshal_aux : Mask → Nat × String
  | .mk none [] => (0, "")
  | .mk none (e :: fp) =>
      let s := (marshalFields (e :: fp)).mergeSort strLeB
      (s.length, joinComma s)
  | .mk (some x) fp =>
      let s := (appendEntry "*" (marshal_aux x) :: marshalFields fp).mergeSort strLeB
      (s.length, joinComma s)
termination_by m => sizeOf m
decreasing_by all_goals (simp <;> omega)
/-- The field loop of `_marshal`. -/
def marshalFields : List (FieldKey × Mask) → List String
  | [] => []
  | (k, v) :: rest => appendEntry (keyMarshal k) (marshal_aux v) :: marshalFields rest
termination_by l => sizeOf l
decreasing_by all_goals (simp <;> omega)
end

/-- `Mask.marshal`. -/
def marshal (m : Mask) : String := (marshal_aux m).2

mutual
/-- Spec-side property: at every level of the tree, every key present in
`field_parts` maps to a non-empty sub-mask (the wildcard branch may be
empty; the top-level mask itself may be empty). -/
def noEmptyEntries : Mask → Bool
  | .mk none fp => neeFields fp
  | .mk (some x) fp => noEmptyEntries x && neeFields fp
termination_by m => sizeOf m
decreasing_by all_goals (simp <;> omega)
/-- `noEmptyEntries` over the entries of one level. -/
def neeFields : List (FieldKey × Mask) → Bool
  | [] => true
  | (_, v) :: rest => !v.is_empty && noEmptyEntries v && neeFields rest
termination_by l => sizeOf l
decreasing_by all_goals (simp <;> omega)
end

/-- Keys of an association list are pairwise distinct (always true of
the levels of a mask built through Python dicts). -/
def noDupKeys : List (FieldKey × Mask) → Bool
  | [] => true
  | (k, _) :: rest => (lookupFP rest k).isNone && noDupKeys rest

mutual
/-- Well-formedness: every level has distinct keys (true of any mask the
Python code can build, since `field_parts` is a dict). -/
def wfMask : Mask → Bool
  | .mk none fp => noDupKeys fp && wfFields fp
  | .mk (some x) fp => wfMask x && noDupKeys fp && wfFields fp
termination_by m => sizeOf m
decreasing_by all_goals (simp <;> omega)
/-- `wfMask` over the entries of one level. -/
def wfFields : List (FieldKey × Mask) → Bool
  | [] => true
  | (_, v) :: rest => wfMask v && wfFields rest
termination_by l => sizeOf l
decreasing_by all_goals (simp <;> omega)
end

end Mask

/-- The base `Error` class of `fieldmask.py` (raised by
`Mask.to_field_path`). -/
inductive MaskErr where
  | err (msg : String)
deriving DecidableEq

/-- A field path: ordered list of keys (`class FieldPath`). -/
abbrev FieldPath := List FieldKey

namespace Mask

/-- `Mask.to_field_path`: convert a single-path mask to a field path;
`none` for the empty mask; an error on wildcards or branching. -/
def to_field_path : Mask → Except MaskErr (Option FieldPath)
  | .mk (some _) _ => .error (.err "wildcard in the mask")
  | .mk none [] => .ok none
  | .mk none [(k, v)] =>
      match to_field_path v with
      | .ok none => .ok (some [k])
      | .ok (some inner) => .ok (some (k :: inner))
      | .error e => .error e
  | .mk none (_ :: _ :: _) => .error (.err "multiple paths in the mask")
termination_by m => sizeOf m
decreasing_by all_goals (simp <;> omega)

end Mask

namespace FieldPath

open Mask (lookupFP)

/-- `FieldPath._matches_reset_mask`: returns `(has_match, is_final)`.
A missing mask (`None`) matches nothing. -/
def matchesResetAux : List FieldKey → Option Mask → Bool × Bool
  | _, none => (false, false)
  | [], some m => (true, m.is_empty)
  | k :: rest, some (.mk a fp) =>
      let p1 := match a with
        | some x => matchesResetAux rest (some x)
        | none => (false, false)
      match lookupFP fp k with
      | some sub =>
          let p2 := matchesResetAux rest (some sub)
          (p1.1 || p2.1, if p2.1 then p1.2 || p2.2 else p1.2)
      | none => p1

/-- `FieldPath._matches_select_mask`: returns `(has_match, is_inner)`.
A missing or empty mask selects everything below. -/
def matchesSelectAux : List FieldKey → Option Mask → Bool × Bool
  | fp, none => (true, decide (fp.length ≠ 0))
  | fp, some m =>
      if m.is_empty then (true, decide (fp.length ≠ 0))
      else
        match fp, m with
        | [], _ => (true, false)
        | k :: rest, .mk a fps =>
            let p1 := match a with
              | some x => matchesSelectAux rest (some x)
              | none => (false, false)
            match lookupFP fps k with
            | some sub =>
                let p2 := matchesSelectAux rest (some sub)
                (p1.1 || p2.1, if p2.1 then p1.2 || p2.2 else p1.2)
            | none => p1

/-- `FieldPath.matches_reset_mask`. -/
def matches_reset_mask (p : FieldPath) (m : Option Mask) : Bool :=
  (matchesResetAux p m).1

/-- `FieldPath.matches_select_mask`. -/
def matches_select_mask (p : FieldPath) (m : Option Mask) : Bool :=
  (matchesSelectAux p m).1

end FieldPath

/-- Error taxonomy of `FieldKey.unmarshal`: a `MarshalError` raised by
the method itself, or a `json.JSONDecodeError` (subclass of
`ValueError`, not of `fieldmask.Error`) raised by `loads`. -/
inductive KeyErr where
  | marshal (msg : String)
  | jsonDecode (msg : String)
deriving DecidableEq

/-- `FieldKey.unmarshal`: JSON-decode strings that start with a quote,
accept simple-pattern strings verbatim, reject everything else with a
`MarshalError`.  A malformed quoted string propagates the
`JSONDecodeError` of `loads`, uncaught. -/
def fieldKeyUnmarshal (s : String) : Except KeyErr String :=
  match s.data with
  | '"' :: _ =>
      (match jsonLoadsDoc s.data with
       | .ok content => .ok (String.mk content)
       | .error e => .error (.jsonDecode e))
  | _ =>
      if pysimpleStr s then .ok s
      else .error (.marshal "malformed FieldKey string")

/-! ## The lexer and parser of `fieldmask_parser.py`

The parser's `Level` machinery mutates `Mask` objects that can be
aliased (one freshly created child is installed under several active
parents), so the embedding uses an explicit store of nodes addressed by
ids, exactly mirroring Python object identity; `parse` finally resolves
the root id into a `Mask` value (Python's `root.copy()`). -/

/-- `space_chars = " \r\n\t"`. -/
def isSpaceChar (c : Char) : Bool := c = ' ' || c = '\r' || c = '\n' || c = '\t'

/-- `_possible_ellipsis`: truncate to `maxCtx` characters with a
trailing `...`. -/
def possibleEllipsis (s : List Char) (maxCtx : Nat) : List Char :=
  if s.length > maxCtx then s.take (maxCtx - 3) ++ ['.', '.', '.'] else s

/-- The marked context substring built by `_context_around`
(`max_context = 30`, `context_back = 12`, `error_mark = "⃞"`). -/
def contextWithMark (s : List Char) (pos : Nat) : List Char :=
  let ctxStart := if pos ≥ 12 then pos - 12 else 0
  let delta := pos - ctxStart
  let ctxStr := possibleEllipsis (s.drop ctxStart) 30
  ctxStr.take delta ++ ['⃞'] ++ ctxStr.drop delta

/-- `_context_around(s, pos)`: the `"at position {pos} near {json}"`
suffix of a contextual parse error message (`dumps` here uses
`ensure_ascii=False`). -/
def contextAround (s : List Char) (pos : Nat) : String :=
  "at position " ++ toString pos ++ " near " ++ String.mk (jsonDumpsRawList (contextWithMark s pos))

/-- Parse-time errors: `ContextedParseError` (carrying the source, the
offending position and a summary) or a bare `ParseError` with only a
message. -/
inductive PErr where
  | contexted (source : List Char) (position : Nat) (summary : String)
  | plain (msg : String)
deriving DecidableEq

/-- The rendered exception message: `ContextedParseError.__init__`
passes `f"{summary} {_context_around(source, position)}"` to the base
class. -/
def PErr.message : PErr → String
  | .contexted src pos summary => summary ++ " " ++ contextAround src pos
  | .plain m => m

/-- Token kinds of the lexer. -/
inductive TokenType where
  | COMMA | DOT | LBRACE | RBRACE | WILD_CARD | PLAIN_KEY | QUOTED_KEY | EOL
deriving DecidableEq

/-- A lexer token: kind, raw value and source position. -/
structure Token where
  type : TokenType
  value : List Char
  pos : Nat
deriving DecidableEq

/-- Name of a token type, for `Token.__repr__`. -/
def TokenType.name : TokenType → String
  | .COMMA => "COMMA"
  | .DOT => "DOT"
  | .LBRACE => "LBRACE"
  | .RBRACE => "RBRACE"
  | .WILD_CARD => "WILD_CARD"
  | .PLAIN_KEY => "PLAIN_KEY"
  | .QUOTED_KEY => "QUOTED_KEY"
  | .EOL => "EOL"

/-- `Token.__repr__`, used inside "unexpected token" messages. -/
def tokenRepr (t : Token) : String :=
  let val := if t.type = TokenType.QUOTED_KEY then String.mk t.value
             else String.mk (jsonDumpsAsciiList t.value)
  "Token" ++ t.type.name ++ "(" ++ val ++ " pos " ++ toString t.pos ++ ")"

/-- Number of leading whitespace characters (the `while ... in space_set`
loop of `next_token`). -/
def skipCount : List Char → Nat
  | [] => 0
  | c :: rest => if isSpaceChar c then 1 + skipCount rest else 0

/-- The scanning loop of `scan_quoted_key`, on the text after the
opening quote: advance two characters at a backslash, one otherwise,
until a closing quote; returns the position just after the closing
quote, or `none` when the input runs out first. -/
def scanQuotedBody : List Char → Nat → Option Nat
  | [], _ => none
  | c :: rest, pos =>
      if c = '"' then some (pos + 1)
      else if c = '\\' then
        match rest with
        | [] => none
        | _ :: rest2 => scanQuotedBody rest2 (pos + 2)
      else scanQuotedBody rest (pos + 1)

/-- `Lexer.next_token`: scan one token at `pos`, returning it together
with the position after it. -/
def nextToken (source : List Char) (pos : Nat) : Except PErr (Token × Nat) :=
  let rem := source.drop pos
  let pos1 := pos + skipCount rem
  match rem.dropWhile isSpaceChar with
  | [] => .ok (⟨.EOL, [], pos1⟩, pos1)
  | c :: r =>
      if c = ',' then .ok (⟨.COMMA, [','], pos1⟩, pos1 + 1)
      else if c = '.' then .ok (⟨.DOT, ['.'], pos1⟩, pos1 + 1)
      else if c = '(' then .ok (⟨.LBRACE, ['('], pos1⟩, pos1 + 1)
      else if c = ')' then .ok (⟨.RBRACE, [')'], pos1⟩, pos1 + 1)
      else if c = '*' then .ok (⟨.WILD_CARD, ['*'], pos1⟩, pos1 + 1)
      else if c = '"' then
        match scanQuotedBody r (pos1 + 1) with
        | some endPos => .ok (⟨.QUOTED_KEY, (source.drop pos1).take (endPos - pos1), pos1⟩, endPos)
        | none => .error (.contexted source pos1 "unterminated quoted string")
      else if isSimpleChar c then
        -- `scan_plain_key`; its `re_match is None` branch is unreachable
        -- because the caller checked the first character, but is kept.
        match (c :: r).takeWhile isSimpleChar with
        | [] => .error (.contexted source pos1 "unexpected match mismatch")
        | key => .ok (⟨.PLAIN_KEY, key, pos1⟩, pos1 + key.length)
      else .error (.contexted source pos1 "unexpected symbol")

/-- `Token.unquote`: JSON-decode a quoted key into a plain key.  (The
`loads` result of a string document is always a `str`, so the Python
"not a quoted string" branch cannot fire here.) -/
def unquote (t : Token) : Except String Token :=
  if t.type = TokenType.QUOTED_KEY then
    match jsonLoadsDoc t.value with
    | .ok content => .ok ⟨.PLAIN_KEY, content, t.pos⟩
    | .error e => .error e
  else .ok t

/-- `Lexer.__iter__` materialized into a token list (exceptions from
`unquote` are wrapped into a `ContextedParseError` at the token's
position).  `fuel` is a step bound; `parse` passes `length + 1`, which
is sufficient because every non-EOL token consumes at least one
character (the exhaustion branch is unreachable). -/
def tokenize (source : List Char) : Nat → Nat → Except PErr (List Token)
  | _, 0 => .error (.plain "tokenize fuel exhausted (unreachable)")
  | pos, fuel + 1 =>
    match nextToken source pos with
    | .error e => .error e
    | .ok (t, pos2) =>
        match unquote t with
        | .error e => .error (.contexted source t.pos e)
        | .ok t2 =>
            if t2.type = TokenType.EOL then .ok []
            else
              match tokenize source pos2 fuel with
              | .ok ts => .ok (t2 :: ts)
              | .error e => .error e

/-! ### The `Level` machine, over an explicit store of mask nodes -/

/-- One Python `Mask` object of the parser's working graph:
`any` and `field_parts` hold ids of other nodes. -/
structure StoreNode where
  any : Option Nat
  fp : List (FieldKey × Nat)
deriving DecidableEq

/-- The object store: node ids are list indices. -/
abbrev Store := List StoreNode

/-- Allocate a fresh empty mask object (`Mask()`), returning its id. -/
def Store.alloc (st : Store) : Store × Nat := (st ++ [⟨none, []⟩], st.length)

/-- Dereference an id. -/
def Store.getNode (st : Store) (i : Nat) : StoreNode := st.getD i ⟨none, []⟩

/-- Overwrite the node at an id. -/
def Store.setNode (st : Store) (i : Nat) (n : StoreNode) : Store := st.set i n

/-- Dict lookup on a node's `field_parts`. -/
def lookupId : List (FieldKey × Nat) → FieldKey → Option Nat
  | [], _ => none
  | (k', v) :: rest, k => if k' = k then some v else lookupId rest k

/-- `class Level`: branch-tracking state for one parenthesis depth;
`prev` links to the enclosing level. -/
inductive Level where
  | mk (starts ends active : List Nat) (prev : Option Level) (pos : Nat)

namespace Level

def starts : Level → List Nat | .mk s _ _ _ _ => s
def ends : Level → List Nat | .mk _ e _ _ _ => e
def active : Level → List Nat | .mk _ _ a _ _ => a
def prev : Level → Option Level | .mk _ _ _ p _ => p
def pos : Level → Nat | .mk _ _ _ _ p => p

/-- `Level.__init__`: allocate a fresh root mask, make it the single
start and active node. -/
def init (st : Store) : Level × Store :=
  let (st1, root) := st.alloc
  (.mk [root] [] [root] none 0, st1)

end Level

/-- The loop body of `Level.add_key`: walk the active nodes; enter an
existing child for `k`, otherwise install one shared fresh child
(allocated at the first node that lacks `k`, and added to the new
active list only at its creation). -/
def addKeyLoop (k : FieldKey) : List Nat → Store → Option Nat → Store × Option Nat × List Nat
  | [], st, maskId => (st, maskId, [])
  | a :: rest, st, maskId =>
      match lookupId (st.getNode a).fp k with
      | some c =>
          let (st2, m2, na) := addKeyLoop k rest st maskId
          (st2, m2, c :: na)
      | none =>
          match maskId with
          | some mid =>
              let node := st.getNode a
              let st1 := st.setNode a ⟨node.any, node.fp ++ [(k, mid)]⟩
              let (st2, m2, na) := addKeyLoop k rest st1 (some mid)
              (st2, m2, na)
          | none =>
              let (st1, mid) := st.alloc
              let node := st1.getNode a
              let st2 := st1.setNode a ⟨node.any, node.fp ++ [(k, mid)]⟩
              let (st3, m3, na) := addKeyLoop k rest st2 (some mid)
              (st3, m3, mid :: na)

/-- `Level.add_key`. -/
def Level.add_key (lvl : Level) (k : FieldKey) (st : Store) : Level × Store :=
  let (st2, _, na) := addKeyLoop k lvl.active st none
  (.mk lvl.starts lvl.ends na lvl.prev lvl.pos, st2)

/-- The loop body of `Level.add_any`, like `addKeyLoop` for the
wildcard branch. -/
def addAnyLoop : List Nat → Store → Option Nat → Store × Option Nat × List Nat
  | [], st, maskId => (st, maskId, [])
  | a :: rest, st, maskId =>
      match (st.getNode a).any with
      | some c =>
          let (st2, m2, na) := addAnyLoop rest st maskId
          (st2, m2, c :: na)
      | none =>
          match maskId with
          | some mid =>
              let node := st.getNode a
              let st1 := st.setNode a ⟨some mid, node.fp⟩
              let (st2, m2, na) := addAnyLoop rest st1 (some mid)
              (st2, m2, na)
          | none =>
              let (st1, mid) := st.alloc
              let node := st1.getNode a
              let st2 := st1.setNode a ⟨some mid, node.fp⟩
              let (st3, m3, na) := addAnyLoop rest st2 (some mid)
              (st3, m3, mid :: na)

/-- `Level.add_any`. -/
def Level.add_any (lvl : Level) (st : Store) : Level × Store :=
  let (st2, _, na) := addAnyLoop lvl.active st none
  (.mk lvl.starts lvl.ends na lvl.prev lvl.pos, st2)

/-- `Level.new_mask`: finish the current branch (move `active` into
`ends`) and restart from `starts`. -/
def Level.new_mask (lvl : Level) : Level :=
  .mk lvl.starts (lvl.ends ++ lvl.active) lvl.starts lvl.prev lvl.pos

/-- `Level.push_level`: enter a nested parenthesized level whose
`starts`/`active` are the current active set.  (`Level()` first
allocates a fresh root object that `push_level` immediately abandons;
the allocation is kept for fidelity of the store.) -/
def Level.push_level (lvl : Level) (pos : Nat) (st : Store) : Level × Store :=
  let (st1, _) := st.alloc
  (.mk lvl.active [] lvl.active (some lvl) pos, st1)

/-- `Level.pop_level`: return to the enclosing level, whose active set
becomes this level's `ends ++ active`. -/
def Level.pop_level (lvl : Level) : Option Level :=
  match lvl.prev with
  | none => none
  | some p => some (.mk p.starts p.ends (lvl.ends ++ lvl.active) p.prev p.pos)

/-- Parser state machine states (`class State`). -/
inductive PState where
  | KEY | SEPARATOR | LEVEL_START
deriving DecidableEq

/-- The `while True` loop of `parse`.  `fuel` bounds the iterations;
`parse` passes `2 * len(tokens) + 2`, sufficient because every
iteration either consumes a token or leaves `LEVEL_START` (the
exhaustion branch is unreachable). -/
def go (tokens : List Token) (source : List Char) :
    Nat → Nat → PState → Level → Store → Except PErr (PState × Level × Store)
  | 0, _, _, _, _ => .error (.plain "parse fuel exhausted (unreachable)")
  | fuel + 1, pos, state, lvl, st =>
    match tokens.drop pos with
    | [] => .ok (state, lvl, st)
    | tok :: _ =>
      match state with
      | .LEVEL_START =>
          if tok.type = TokenType.RBRACE then go tokens source fuel pos .SEPARATOR lvl st
          else go tokens source fuel pos .KEY lvl st
      | .KEY =>
          match tok.type with
          | .PLAIN_KEY =>
              let (lvl2, st2) := lvl.add_key (String.mk tok.value) st
              go tokens source fuel (pos + 1) .SEPARATOR lvl2 st2
          | .WILD_CARD =>
              let (lvl2, st2) := lvl.add_any st
              go tokens source fuel (pos + 1) .SEPARATOR lvl2 st2
          | .LBRACE =>
              let (lvl2, st2) := lvl.push_level tok.pos st
              go tokens source fuel (pos + 1) .LEVEL_START lvl2 st2
          | _ =>
              .error (.contexted source tok.pos
                ("unexpected token " ++ tokenRepr tok ++ ", expecting field or submask"))
      | .SEPARATOR =>
          match tok.type with
          | .DOT => go tokens source fuel (pos + 1) .KEY lvl st
          | .COMMA => go tokens source fuel (pos + 1) .KEY lvl.new_mask st
          | .RBRACE =>
              (match lvl.pop_level with
               | none => .error (.contexted source tok.pos "unmatched right brace")
               | some lvl2 => go tokens source fuel (pos + 1) .SEPARATOR lvl2 st)
          | _ =>
              .error (.contexted source tok.pos
                ("unexpected token " ++ tokenRepr tok ++ ", expecting separator or closing"
                  ++ " brace"))

/-- Resolve a node id of the store into a `Mask` value (the final
`root.copy()` of `parse`).  `fuel` bounds the depth; the store graph is
acyclic so `parse`'s choice is sufficient. -/
def resolveMask (st : Store) : Nat → Nat → Mask
  | 0, _ => .mk none []
  | fuel + 1, i =>
      let n := st.getNode i
      .mk (n.any.map (resolveMask st fuel))
          (n.fp.map (fun p => (p.1, resolveMask st fuel p.2)))

/-- Fuel sufficient to resolve any node of the store. -/
def storeFuel (st : Store) : Nat := st.foldr (fun n acc => 2 + n.fp.length + acc) 1

/-- `parse(source)` of `fieldmask_parser.py`, on a character list.  (The
`isinstance(source, str)` guard cannot be violated in the typed
embedding.) -/
def parseList (source : List Char) : Except PErr Mask :=
  if source.dropWhile isSpaceChar = [] then .ok (Mask.mk none [])
  else
    match tokenize source 0 (source.length + 1) with
    | .error e => .error e
    | .ok tokens =>
        let (lvl0, st0) := Level.init []
        let root := match lvl0.starts with
          | r :: _ => r
          | [] => 0
        match go tokens source (2 * tokens.length + 2) 0 .KEY lvl0 st0 with
        | .error e => .error e
        | .ok (state, lvlF, stF) =>
            if lvlF.prev.isSome then .error (.contexted source lvlF.pos "unclosed left brace")
            else if state ≠ PState.SEPARATOR then .error (.plain "unexpected end of mask")
            else .ok (resolveMask stF (storeFuel stF) root)

/-- `parse` on a `String` (`Mask.unmarshal`). -/
def parse (s : String) : Except PErr Mask := parseList s.data

/-- `FieldPath.unmarshal`: `Mask.unmarshal(s).to_field_path()`.  The two
possible error kinds (parse errors and mask-structure errors) are kept
apart. -/
def fieldPathUnmarshal (s : String) : Except (PErr ⊕ MaskErr) (Option FieldPath) :=
  match parse s with
  | .error e => .error (.inl e)
  | .ok m =>
      match m.to_field_path with
      | .ok p => .ok p
      | .error e => .error (.inr e)

/-! ## Theorems for the claims -/

section Claims

open Mask

/-- C3: for `m1 = parse("*.x")` and `m2 = parse("k.x")`,
`m1.intersect_reset_mask(m2)` is a non-empty mask (the wildcard branch
of `m1` is cross-matched against `m2`'s named key `k`), while
`m1.intersect_dumb(m2)` is an empty mask. -/
theorem C3_wildcard_cross_match :
    parse "*.x" = .ok (Mask.mk (some (.mk none [("x", .mk none [])])) []) ∧
    parse "k.x" = .ok (Mask.mk none [("k", .mk none [("x", .mk none [])])]) ∧
    (Mask.mk (some (.mk none [("x", .mk none [])])) []).intersect_reset_mask
        (some (Mask.mk none [("k", .mk none [("x", .mk none [])])]))
      = some (Mask.mk none [("k", .mk none [("x", .mk none [])])]) ∧
    (Mask.mk none [("k", .mk none [("x", .mk none [])])]).is_empty = false ∧
    (Mask.mk (some (.mk none [("x", .mk none [])])) []).intersect_dumb
        (some (Mask.mk none [("k", .mk none [("x", .mk none [])])]))
      = some (Mask.mk none []) ∧
    (Mask.mk none []).is_empty = true := by
  refine ⟨rfl, rfl, ?_, rfl, ?_, rfl⟩
  · simp [intersect_reset_mask, irmPhase1, irmPhase2, irmPhase3, insertMergeRet, lookupFP, iadd]
  · simp [intersect_dumb, idFields, lookupFP]

/-- C4: round-tripping fails on the mask with the single key `"a\n"`:
Python's `$` matches before a trailing newline, so
`_simple_string_pattern` accepts `"a\n"` and `marshal` emits it
unquoted; the lexer then treats the newline as whitespace and parses the
key back as `"a"`, so `unmarshal(m.marshal()) != m`. -/
theorem C4_roundtrip_fails_on_trailing_newline_key :
    (Mask.mk none [("a\n", Mask.mk none [])]).marshal = "a\n" ∧
    parse ((Mask.mk none [("a\n", Mask.mk none [])]).marshal)
      = .ok (Mask.mk none [("a", Mask.mk none [])]) ∧
    maskEq (Mask.mk none [("a", Mask.mk none [])]) (Mask.mk none [("a\n", Mask.mk none [])])
      = false := by
  have h1 : (Mask.mk none [("a\n", Mask.mk none [])]).marshal = "a\n" := by
    simp [marshal, marshal_aux, marshalFields, appendEntry, keyMarshal, pysimpleStr,
      pysimple, isSimpleChar, joinComma]
  refine ⟨h1, ?_, ?_⟩
  · rw [h1]
    rfl
  · simp [maskEq, meqFields, lookupFP]

/-- C8: `matches_select_mask` treats an absent constraint (`None` or an
empty mask) as full inclusion, while `matches_reset_mask` treats `None`
as no match and, for a non-empty path, an empty mask as no match. -/
theorem C8_select_vs_reset_absence (p : FieldPath) :
    FieldPath.matches_select_mask p none = true ∧
    FieldPath.matches_select_mask p (some (Mask.mk none [])) = true ∧
    FieldPath.matches_reset_mask p none = false ∧
    (p ≠ [] → FieldPath.matches_reset_mask p (some (Mask.mk none [])) = false) := by
  refine ⟨?_, ?_, ?_, ?_⟩
  · cases p <;> simp [FieldPath.matches_select_mask, FieldPath.matchesSelectAux]
  · cases p <;> simp [FieldPath.matches_select_mask, FieldPath.matchesSelectAux, is_empty]
  · cases p <;> simp [FieldPath.matches_reset_mask, FieldPath.matchesResetAux]
  · intro hp
    match p, hp with
    | k :: rest, _ =>
        simp [FieldPath.matches_reset_mask, FieldPath.matchesResetAux, lookupFP]

/-- Witness for C8 at the concrete path `["a"]`. -/
theorem C8_select_vs_reset_absence_witness :
    (["a"] : FieldPath) ≠ [] ∧
    FieldPath.matches_reset_mask ["a"] (some (Mask.mk none [])) = false :=
  ⟨by decide, (C8_select_vs_reset_absence ["a"]).2.2.2 (by decide)⟩

/-- C10: subtracting a non-Mask argument (modelled as `none`, which is
how the `isinstance` guard classifies `None` and every other non-`Mask`
value) is a silent no-op for both subtract variants: no error, and the
mask is left unchanged. -/
theorem C10_subtract_non_mask_noop (m : Mask) :
    m.subtract_dumb none = m ∧ m.subtract_reset_mask none = m := by
  constructor
  · simp [subtract_dumb]
  · simp [subtract_reset_mask]

/-- C1 (counterexample to the claim as stated): intersecting the masks
`a.x` and `a.y` — with either intersect variant — yields a mask whose
`field_parts` retains the key `a` mapped to an empty sub-mask: emptied
entries are not pruned by the intersect methods. -/
theorem C1_counterexample_intersect_keeps_empty_entry :
    (Mask.mk none [("a", .mk none [("x", .mk none [])])]).intersect_dumb
        (some (.mk none [("a", .mk none [("y", .mk none [])])]))
      = some (.mk none [("a", .mk none [])]) ∧
    (Mask.mk none [("a", .mk none [("x", .mk none [])])]).intersect_reset_mask
        (some (.mk none [("a", .mk none [("y", .mk none [])])]))
      = some (.mk none [("a", .mk none [])]) ∧
    lookupFP [("a", Mask.mk none [])] "a" = some (.mk none []) ∧
    (Mask.mk none []).is_empty = true ∧
    noEmptyEntries (.mk none [("a", .mk none [])]) = false := by
  refine ⟨?_, ?_, by simp [lookupFP], rfl, by simp [noEmptyEntries, neeFields, is_empty]⟩
  · simp [intersect_dumb, idFields, lookupFP]
  · simp [intersect_reset_mask, irmPhase1, irmPhase2, irmPhase3, insertMergeRet, lookupFP, iadd]

/-- Unfolding equation for `sdFields` on a cons cell. -/
theorem sdFields_cons (k0 : FieldKey) (v0 : Mask) (rest ofp : List (FieldKey × Mask)) :
    sdFields ((k0, v0) :: rest) ofp =
      (match lookupFP ofp k0 with
       | some w =>
           if (v0.subtract_dumb (some w)).is_empty then sdFields rest ofp
           else (k0, v0.subtract_dumb (some w)) :: sdFields rest ofp
       | none => (k0, v0) :: sdFields rest ofp) := by
  simp only [sdFields]
  split
  · rename_i w h
    simp only [h]
  · rename_i h
    simp only [h]

/-- Unfolding equation for `srmFields` on a cons cell. -/
theorem srmFields_cons (k0 : FieldKey) (v0 : Mask) (rest : List (FieldKey × Mask))
    (oa : Option Mask) (ofp : List (FieldKey × Mask)) :
    srmFields ((k0, v0) :: rest) oa ofp =
      (if oa.isNone && (lookupFP ofp k0).isNone then (k0, v0) :: srmFields rest oa ofp
       else if (srmEntry v0 oa (lookupFP ofp k0)).is_empty then srmFields rest oa ofp
       else (k0, srmEntry v0 oa (lookupFP ofp k0)) :: srmFields rest oa ofp) := by
  cases oa with
  | none =>
      cases hlo : lookupFP ofp k0 with
      | none => simp [srmFields, srmEntry, hlo]
      | some w =>
          simp only [srmFields, srmEntry, hlo, Option.isNone_none, Option.isNone_some,
            Bool.and_false, Bool.false_eq_true, if_false]
          have hm : (match h : lookupFP ofp k0 with
              | some w' => v0.subtract_reset_mask (some w')
              | none => v0) = v0.subtract_reset_mask (some w) := by
            split
            · rename_i w' h
              rw [hlo] at h
              cases h
              rfl
            · rename_i h
              rw [hlo] at h
              cases h
          rw [hm]
  | some y =>
      cases hlo : lookupFP ofp k0 with
      | none =>
          simp only [srmFields, srmEntry, hlo, Option.isNone_none, Option.isNone_some,
            Bool.false_and, Bool.false_eq_true, if_false]
          have hm : (match h : lookupFP ofp k0 with
              | some w' => (v0.subtract_reset_mask (some y)).subtract_reset_mask (some w')
              | none => v0.subtract_reset_mask (some y)) = v0.subtract_reset_mask (some y) := by
            split
            · rename_i w' h
              rw [hlo] at h
              cases h
            · rename_i h
              rfl
          rw [hm]
      | some w =>
          simp only [srmFields, srmEntry, hlo, Option.isNone_none, Option.isNone_some,
            Bool.false_and, Bool.false_eq_true, if_false]
          have hm : (match h : lookupFP ofp k0 with
              | some w' => (v0.subtract_reset_mask (some y)).subtract_reset_mask (some w')
              | none => v0.subtract_reset_mask (some y))
              = (v0.subtract_reset_mask (some y)).subtract_reset_mask (some w) := by
            split
            · rename_i w' h
              rw [hlo] at h
              cases h
              rfl
            · rename_i h
              rw [hlo] at h
              cases h
          rw [hm]

/-- The field parts of a `subtract_dumb` result. -/
theorem subtract_dumb_fp (a oa : Option Mask) (fp ofp : List (FieldKey × Mask)) :
    ((Mask.mk a fp).subtract_dumb (some (.mk oa ofp))).field_parts = sdFields fp ofp := by
  cases a <;> cases oa <;> simp [subtract_dumb, field_parts]

/-- The field parts of a `subtract_reset_mask` result. -/
theorem subtract_reset_mask_fp (a oa : Option Mask) (fp ofp : List (FieldKey × Mask)) :
    ((Mask.mk a fp).subtract_reset_mask (some (.mk oa ofp))).field_parts = srmFields fp oa ofp := by
  cases a <;> simp [subtract_reset_mask, field_parts]

/-- Helper for C1: an empty-valued entry surviving `sdFields` was left
untouched (its key had no match in `other.field_parts`) and is an
original entry of `self`. -/
theorem sdFields_empty_entry_untouched (ofp : List (FieldKey × Mask)) :
    ∀ fp (k : FieldKey) (v' : Mask), v'.is_empty = true →
      lookupFP (sdFields fp ofp) k = some v' →
      lookupFP fp k = some v' ∧ lookupFP ofp k = none := by
  intro fp
  induction fp with
  | nil => intro k v' _ h; simp [sdFields, lookupFP] at h
  | cons e rest ih =>
      obtain ⟨k0, v0⟩ := e
      intro k v' hemp h
      rw [sdFields_cons] at h
      cases hlo : lookupFP ofp k0 with
      | none =>
          simp only [hlo] at h
          by_cases hk : k0 = k
          · subst hk
            simp only [lookupFP, if_pos rfl] at h ⊢
            exact ⟨h, hlo⟩
          · simp only [lookupFP, if_neg hk] at h ⊢
            exact ih k v' hemp h
      | some w =>
          simp only [hlo] at h
          by_cases he : (v0.subtract_dumb (some w)).is_empty = true
          · simp only [he, if_true] at h
            by_cases hk : k0 = k
            · subst hk
              have h2 := (ih k0 v' hemp h).2
              rw [hlo] at h2
              cases h2
            · simp only [lookupFP, if_neg hk]
              exact ih k v' hemp h
          · simp only [he, if_false] at h
            by_cases hk : k0 = k
            · subst hk
              simp only [lookupFP, if_pos rfl] at h
              have : v0.subtract_dumb (some w) = v' := by injection h
              rw [this] at he
              exact absurd hemp he
            · simp only [lookupFP, if_neg hk] at h ⊢
              exact ih k v' hemp h

/-- Helper for C1: an empty-valued entry surviving `srmFields` was left
untouched (no wildcard in `other` and no matching named key) and is an
original entry of `self`. -/
theorem srmFields_empty_entry_untouched (oa : Option Mask) (ofp : List (FieldKey × Mask)) :
    ∀ fp (k : FieldKey) (v' : Mask), v'.is_empty = true →
      lookupFP (srmFields fp oa ofp) k = some v' →
      lookupFP fp k = some v' ∧ oa = none ∧ lookupFP ofp k = none := by
  intro fp
  induction fp with
  | nil => intro k v' _ h; simp [srmFields, lookupFP] at h
  | cons e rest ih =>
      obtain ⟨k0, v0⟩ := e
      intro k v' hemp h
      rw [srmFields_cons] at h
      by_cases hskip : (oa.isNone && (lookupFP ofp k0).isNone) = true
      · rw [if_pos hskip] at h
        simp only [Bool.and_eq_true, Option.isNone_iff_eq_none] at hskip
        by_cases hk : k0 = k
        · subst hk
          simp only [lookupFP, if_pos rfl] at h ⊢
          exact ⟨h, hskip.1, hskip.2⟩
        · simp only [lookupFP, if_neg hk] at h ⊢
          exact ih k v' hemp h
      · rw [if_neg hskip] at h
        by_cases he : (srmEntry v0 oa (lookupFP ofp k0)).is_empty = true
        · rw [if_pos he] at h
          by_cases hk : k0 = k
          · -- the key was processed, so the recursive tail cannot
            -- testify an untouched empty `k` entry while `k0 = k` had a
            -- correspondent
            subst hk
            have h3 := ih k0 v' hemp h
            rw [h3.2.1, h3.2.2] at hskip
            simp at hskip
          · have h3 := ih k v' hemp h
            exact ⟨by simpa [lookupFP, hk] using h3.1, h3.2⟩
        · rw [if_neg he] at h
          by_cases hk : k0 = k
          · subst hk
            simp only [lookupFP, if_pos rfl] at h
            have : srmEntry v0 oa (lookupFP ofp k0) = v' := by injection h
            rw [this] at he
            exact absurd hemp he
          · simp only [lookupFP, if_neg hk] at h
            have h3 := ih k v' hemp h
            exact ⟨by simpa [lookupFP, hk] using h3.1, h3.2⟩

/-- C1 (amended): the subtract variants never retain an entry they
emptied — an entry of the result whose sub-mask is empty is an original
entry of `self` that the operation left untouched because it had no
correspondent in `other` (for `subtract_dumb`: no matching named key;
for `subtract_reset_mask`: no wildcard in `other` and no matching named
key).  The intersect variants do not prune (see the counterexample). -/
theorem C1_subtract_prunes_emptied_entries (a oa : Option Mask)
    (fp ofp : List (FieldKey × Mask)) (k : FieldKey) (v' : Mask)
    (hemp : v'.is_empty = true) :
    (lookupFP ((Mask.mk a fp).subtract_dumb (some (.mk oa ofp))).field_parts k = some v' →
       lookupFP fp k = some v' ∧ lookupFP ofp k = none) ∧
    (lookupFP ((Mask.mk a fp).subtract_reset_mask (some (.mk oa ofp))).field_parts k = some v' →
       lookupFP fp k = some v' ∧ oa = none ∧ lookupFP ofp k = none) := by
  constructor
  · intro h
    rw [subtract_dumb_fp] at h
    exact sdFields_empty_entry_untouched ofp fp k v' hemp h
  · intro h
    rw [subtract_reset_mask_fp] at h
    exact srmFields_empty_entry_untouched oa ofp fp k v' hemp h

/-- Witness for C1 at a concrete input: subtracting the empty mask from
`{a: empty}` keeps the untouched empty entry, and the theorem reports it
as original and unmatched. -/
theorem C1_subtract_prunes_emptied_entries_witness :
    (Mask.mk none []).is_empty = true ∧
    lookupFP ((Mask.mk none [("a", .mk none [])]).subtract_dumb
        (some (.mk none []))).field_parts "a" = some (.mk none []) ∧
    lookupFP [("a", Mask.mk none [])] "a" = some (.mk none []) ∧
    lookupFP ([] : List (FieldKey × Mask)) "a" = none := by
  refine ⟨rfl, ?_, ?_, rfl⟩
  · simp [subtract_dumb, sdFields, field_parts, lookupFP]
  · exact ((C1_subtract_prunes_emptied_entries none none [("a", .mk none [])] [] "a"
      (.mk none []) rfl).1 (by simp [subtract_dumb, sdFields, field_parts, lookupFP])).1

/-- Helper for C2: `srmFields` never introduces keys. -/
theorem lookup_srmFields_none (oa : Option Mask) (ofp : List (FieldKey × Mask)) :
    ∀ fp (k : FieldKey), lookupFP fp k = none →
      lookupFP (srmFields fp oa ofp) k = none := by
  intro fp
  induction fp with
  | nil => intro k _; simp [srmFields, lookupFP]
  | cons e rest ih =>
      obtain ⟨k0, v0⟩ := e
      intro k hnone
      have hk : ¬k0 = k := by
        intro hkk
        rw [lookupFP, if_pos hkk] at hnone
        cases hnone
      rw [lookupFP, if_neg hk] at hnone
      rw [srmFields_cons]
      by_cases hskip : (oa.isNone && (lookupFP ofp k0).isNone) = true
      · rw [if_pos hskip, lookupFP, if_neg hk]
        exact ih k hnone
      · rw [if_neg hskip]
        by_cases he : (srmEntry v0 oa (lookupFP ofp k0)).is_empty = true
        · rw [if_pos he]
          exact ih k hnone
        · rw [if_neg he, lookupFP, if_neg hk]
          exact ih k hnone

/-- Helper for C2: a named key with no correspondent at all in `other`
(`other.any` absent and the key not among `other`'s named keys) is left
untouched by the `srmFields` loop. -/
theorem lookup_srmFields_skip (ofp : List (FieldKey × Mask)) (k : FieldKey)
    (hofp : lookupFP ofp k = none) :
    ∀ fp, lookupFP (srmFields fp none ofp) k = lookupFP fp k := by
  intro fp
  induction fp with
  | nil => simp [srmFields]
  | cons e rest ih =>
      obtain ⟨k0, v0⟩ := e
      rw [srmFields_cons]
      by_cases hk : k0 = k
      · subst hk
        rw [hofp]
        simp only [Option.isNone_none, Bool.and_true, if_pos rfl]
        simp [lookupFP]
      · cases hlo : lookupFP ofp k0 with
        | none =>
            simp only [hlo, Option.isNone_none, Bool.and_true, Option.isNone_some, if_pos rfl]
            simp only [lookupFP, if_neg hk]
            exact ih
        | some w =>
            simp only [hlo, Option.isNone_none, Bool.and_true, Option.isNone_some,
              Bool.and_false, Bool.false_eq_true, if_false]
            by_cases he : (srmEntry v0 none (some w)).is_empty = true
            · rw [if_pos he, ih]
              simp only [lookupFP, if_neg hk]
            · rw [if_neg he]
              simp only [lookupFP, if_neg hk]
              exact ih

/-- Helper for C2: a named key that does have a correspondent in `other`
is subtracted by `other.any` (when present) and then by `other`'s
exactly matching named key (when present), and is deleted exactly when
that leaves it empty. -/
theorem lookup_srmFields_processed (oa : Option Mask) (ofp : List (FieldKey × Mask))
    (k : FieldKey) :
    ∀ fp, noDupKeys fp = true → ∀ v, lookupFP fp k = some v →
      (oa ≠ none ∨ lookupFP ofp k ≠ none) →
      lookupFP (srmFields fp oa ofp) k =
        (if (srmEntry v oa (lookupFP ofp k)).is_empty then none
         else some (srmEntry v oa (lookupFP ofp k))) := by
  intro fp
  induction fp with
  | nil => intro _ v hv; simp [lookupFP] at hv
  | cons e rest ih =>
      obtain ⟨k0, v0⟩ := e
      intro hnd v hv hcor
      rw [noDupKeys, Bool.and_eq_true] at hnd
      rw [srmFields_cons]
      by_cases hk : k0 = k
      · subst hk
        rw [lookupFP, if_pos rfl] at hv
        have hv0 : v0 = v := by injection hv
        subst hv0
        have hskip : ¬(oa.isNone && (lookupFP ofp k0).isNone) = true := by
          simp only [Bool.and_eq_true, Option.isNone_iff_eq_none]
          rintro ⟨h1, h2⟩
          cases hcor with
          | inl hc => exact hc h1
          | inr hc => exact hc h2
        rw [if_neg hskip]
        by_cases he : (srmEntry v0 oa (lookupFP ofp k0)).is_empty = true
        · rw [if_pos he, if_pos he]
          apply lookup_srmFields_none
          exact Option.isNone_iff_eq_none.mp hnd.1
        · rw [if_neg he, if_neg he, lookupFP, if_pos rfl]
      · have hrest : lookupFP rest k = some v := by
          rw [lookupFP, if_neg hk] at hv
          exact hv
        have tail := ih hnd.2 v hrest hcor
        by_cases hskip : (oa.isNone && (lookupFP ofp k0).isNone) = true
        · rw [if_pos hskip, lookupFP, if_neg hk]
          exact tail
        · rw [if_neg hskip]
          by_cases he : (srmEntry v0 oa (lookupFP ofp k0)).is_empty = true
          · rw [if_pos he]
            exact tail
          · rw [if_neg he, lookupFP, if_neg hk]
            exact tail

/-- C2: `subtract_reset_mask` leaves untouched every named key of `self`
with no correspondent at all in `other`; a named key with a
correspondent is subtracted by `other.any` (when present) and by
`other`'s exactly matching named key (when present) and deleted
exactly when that leaves it empty; and `self`'s wildcard branch is
subtracted only against `other.any`, never against `other`'s named
keys. -/
theorem C2_subtract_reset_mask_characterization (a oa : Option Mask)
    (fp ofp : List (FieldKey × Mask)) (k : FieldKey)
    (hnd : noDupKeys fp = true) :
    (oa = none → lookupFP ofp k = none →
      lookupFP ((Mask.mk a fp).subtract_reset_mask (some (.mk oa ofp))).field_parts k
        = lookupFP fp k) ∧
    (∀ v, lookupFP fp k = some v → (oa ≠ none ∨ lookupFP ofp k ≠ none) →
      lookupFP ((Mask.mk a fp).subtract_reset_mask (some (.mk oa ofp))).field_parts k
        = (if (srmEntry v oa (lookupFP ofp k)).is_empty then none
           else some (srmEntry v oa (lookupFP ofp k)))) ∧
    (((Mask.mk a fp).subtract_reset_mask (some (.mk oa ofp))).any
      = (match a with
         | some x => if (x.subtract_reset_mask oa).is_empty then none
                     else some (x.subtract_reset_mask oa)
         | none => none)) := by
  refine ⟨?_, ?_, ?_⟩
  · intro h1 h2
    subst h1
    rw [subtract_reset_mask_fp]
    exact lookup_srmFields_skip ofp k h2 fp
  · intro v hv hcor
    rw [subtract_reset_mask_fp]
    exact lookup_srmFields_processed oa ofp k fp hnd v hv hcor
  · cases a <;> simp [subtract_reset_mask, any]

/-- Witness for C2 at a concrete input: subtracting `p.q` from itself
deletes the named key `p` (its sub-mask is erased to empty). -/
theorem C2_subtract_reset_mask_characterization_witness :
    noDupKeys [("p", Mask.mk none [("q", Mask.mk none [])])] = true ∧
    lookupFP [("p", Mask.mk none [("q", Mask.mk none [])])] "p"
      = some (Mask.mk none [("q", Mask.mk none [])]) ∧
    ((none : Option Mask) ≠ none ∨
      lookupFP [("p", Mask.mk none [("q", Mask.mk none [])])] "p" ≠ none) ∧
    lookupFP ((Mask.mk none [("p", Mask.mk none [("q", Mask.mk none [])])]).subtract_reset_mask
        (some (.mk none [("p", Mask.mk none [("q", Mask.mk none [])])]))).field_parts "p"
      = (if (srmEntry (Mask.mk none [("q", Mask.mk none [])]) none
              (lookupFP [("p", Mask.mk none [("q", Mask.mk none [])])] "p")).is_empty then none
         else some (srmEntry (Mask.mk none [("q", Mask.mk none [])]) none
              (lookupFP [("p", Mask.mk none [("q", Mask.mk none [])])] "p"))) := by
  refine ⟨by simp [noDupKeys, lookupFP], by simp [lookupFP], Or.inr (by simp [lookupFP]), ?_⟩
  exact (C2_subtract_reset_mask_characterization none none
      [("p", Mask.mk none [("q", Mask.mk none [])])]
      [("p", Mask.mk none [("q", Mask.mk none [])])] "p"
      (by simp [noDupKeys, lookupFP])).2.1
    (Mask.mk none [("q", Mask.mk none [])]) (by simp [lookupFP])
    (Or.inr (by simp [lookupFP]))

/-- C9: for the empty mask, `to_field_path()` returns `None` rather than
raising; consequently `FieldPath.unmarshal` on an empty or all-whitespace
string returns `None`. -/
theorem C9_empty_mask_field_path :
    (Mask.mk none []).to_field_path = .ok none ∧
    fieldPathUnmarshal "" = .ok none ∧
    (∀ s : String, s.data.all isSpaceChar = true → fieldPathUnmarshal s = .ok none) := by
  refine ⟨by simp [to_field_path], by simp [fieldPathUnmarshal, parse, parseList, to_field_path], ?_⟩
  intro s h
  have hd : s.data.dropWhile isSpaceChar = [] := by
    rw [List.dropWhile_eq_nil_iff]
    simp only [List.all_eq_true] at h
    exact h
  simp [fieldPathUnmarshal, parse, parseList, hd, to_field_path]

/-- Witness for C9 at the whitespace string `" \t\r\n "`. -/
theorem C9_empty_mask_field_path_witness :
    (" \t\r\n ".data.all isSpaceChar = true) ∧ fieldPathUnmarshal " \t\r\n " = .ok none :=
  ⟨by decide, C9_empty_mask_field_path.2.2 " \t\r\n " (by decide)⟩

/-- C6 (counterexample to the claim as stated): `FieldKey.unmarshal` on
the single-quote-character string fails, but with a `JSONDecodeError`
propagated out of `loads` — not with a `MarshalError`. -/
theorem C6_counterexample_json_error :
    fieldKeyUnmarshal "\"" = .error (.jsonDecode "Unterminated string starting at") ∧
    (match fieldKeyUnmarshal "\"" with
     | .error (.marshal _) => true
     | _ => false) = false :=
  ⟨rfl, rfl⟩

/-- C6 (amended): when `s` starts with a double quote it is handed to
`loads`; a valid JSON string document yields its decoded content, and a
malformed one propagates the `JSONDecodeError` (a `ValueError`, not a
`MarshalError`).  Otherwise `s` is returned verbatim iff it matches
Python's `^[a-zA-Z0-9_]+$` (which also accepts one trailing newline
after the identifier characters), and every other string fails with a
`MarshalError`. -/
theorem C6_field_key_unmarshal_cases :
    (∀ s : String, ∀ c, startsWithQuote s = true → jsonLoadsDoc s.data = .ok c →
        fieldKeyUnmarshal s = .ok (String.mk c)) ∧
    (∀ s : String, ∀ m, startsWithQuote s = true → jsonLoadsDoc s.data = .error m →
        fieldKeyUnmarshal s = .error (.jsonDecode m)) ∧
    (∀ s : String, startsWithQuote s = false → pysimpleStr s = true →
        fieldKeyUnmarshal s = .ok s) ∧
    (∀ s : String, startsWithQuote s = false → pysimpleStr s = false →
        fieldKeyUnmarshal s = .error (.marshal "malformed FieldKey string")) := by
  have hquote : ∀ s : String, startsWithQuote s = true → ∃ t, s.data = '"' :: t := by
    intro s hq
    unfold startsWithQuote at hq
    split at hq
    · next heq => exact ⟨_, heq⟩
    · exact absurd hq (by simp)
  refine ⟨?_, ?_, ?_, ?_⟩
  · intro s c hq hj
    obtain ⟨t, hd⟩ := hquote s hq
    rw [hd] at hj
    simp [fieldKeyUnmarshal, hd, hj]
  · intro s m hq hj
    obtain ⟨t, hd⟩ := hquote s hq
    rw [hd] at hj
    simp [fieldKeyUnmarshal, hd, hj]
  · intro s hq hs
    simp only [fieldKeyUnmarshal]
    split
    · next t heq =>
        unfold startsWithQuote at hq
        rw [heq] at hq
        simp at hq
    · simp [hs]
  · intro s hq hs
    simp only [fieldKeyUnmarshal]
    split
    · next t heq =>
        unfold startsWithQuote at hq
        rw [heq] at hq
        simp at hq
    · simp [hs]

/-- Witness for C6 at concrete inputs for each hypothesis-guarded case:
a malformed quoted key, a simple key, and a malformed plain key. -/
theorem C6_field_key_unmarshal_cases_witness :
    (startsWithQuote "\"" = true ∧ jsonLoadsDoc "\"".data = .error "Unterminated string starting at" ∧
      fieldKeyUnmarshal "\"" = .error (.jsonDecode "Unterminated string starting at")) ∧
    (startsWithQuote "abc" = false ∧ pysimpleStr "abc" = true ∧ fieldKeyUnmarshal "abc" = .ok "abc") ∧
    (startsWithQuote "a b" = false ∧ pysimpleStr "a b" = false ∧
      fieldKeyUnmarshal "a b" = .error (.marshal "malformed FieldKey string")) :=
  ⟨⟨rfl, rfl, C6_field_key_unmarshal_cases.2.1 "\"" _ rfl rfl⟩,
   ⟨rfl, by decide, C6_field_key_unmarshal_cases.2.2.1 "abc" rfl (by decide)⟩,
   ⟨rfl, by decide, C6_field_key_unmarshal_cases.2.2.2 "a b" rfl (by decide)⟩⟩

/-! ### C5: error reporting -/

/-- `skipCount` is the length of the whitespace prefix: dropping it is
`dropWhile`. -/
theorem skipCount_drop (l : List Char) : l.drop (skipCount l) = l.dropWhile isSpaceChar := by
  induction l with
  | nil => simp [skipCount]
  | cons c rest ih =>
      rw [skipCount]
      by_cases hc : isSpaceChar c = true
      · rw [if_pos hc, List.dropWhile_cons, if_pos hc, Nat.add_comm, List.drop_succ_cons]
        exact ih
      · rw [if_neg hc, List.dropWhile_cons, if_neg hc, List.drop_zero]

/-- The quoted-key scan only moves forward. -/
theorem scanQuotedBody_gt : ∀ (r : List Char) (q e : Nat), scanQuotedBody r q = some e → q < e
  | [], q, e => by simp [scanQuotedBody]
  | [c], q, e => by
      intro h
      rw [scanQuotedBody] at h
      by_cases h1 : c = '"'
      · rw [if_pos h1] at h
        injection h with h2
        omega
      · rw [if_neg h1] at h
        by_cases h2 : c = '\\'
        · rw [if_pos h2] at h
          exact absurd h (by simp)
        · rw [if_neg h2] at h
          rw [scanQuotedBody] at h
          exact absurd h (by simp)
  | c :: d :: rest, q, e => by
      intro h
      rw [scanQuotedBody] at h
      by_cases h1 : c = '"'
      · rw [if_pos h1] at h
        injection h with h2
        omega
      · rw [if_neg h1] at h
        by_cases h2 : c = '\\'
        · rw [if_pos h2] at h
          have := scanQuotedBody_gt rest (q + 2) e h
          omega
        · rw [if_neg h2] at h
          have := scanQuotedBody_gt (d :: rest) (q + 1) e h
          omega

/-- Every lexer error is a `ContextedParseError` on the source. -/
theorem nextToken_error_contexted (source : List Char) (pos : Nat) (e : PErr)
    (h : nextToken source pos = .error e) : ∃ p s, e = .contexted source p s := by
  simp only [nextToken] at h
  cases hdw2 : (source.drop pos).dropWhile isSpaceChar with
  | nil =>
      simp only [hdw2] at h
      exact absurd h (by simp)
  | cons c r =>
      simp only [hdw2] at h
      by_cases h1 : c = ','
      · rw [if_pos h1] at h; exact absurd h (by simp)
      · rw [if_neg h1] at h
        by_cases h2 : c = '.'
        · rw [if_pos h2] at h; exact absurd h (by simp)
        · rw [if_neg h2] at h
          by_cases h3 : c = '('
          · rw [if_pos h3] at h; exact absurd h (by simp)
          · rw [if_neg h3] at h
            by_cases h4 : c = ')'
            · rw [if_pos h4] at h; exact absurd h (by simp)
            · rw [if_neg h4] at h
              by_cases h5 : c = '*'
              · rw [if_pos h5] at h; exact absurd h (by simp)
              · rw [if_neg h5] at h
                by_cases h6 : c = '"'
                · rw [if_pos h6] at h
                  cases hscan : scanQuotedBody r (pos + skipCount (source.drop pos) + 1) with
                  | some endPos =>
                      simp only [hscan] at h
                      exact absurd h (by simp)
                  | none =>
                      simp only [hscan] at h
                      injection h with h7
                      exact ⟨_, _, h7.symm⟩
                · rw [if_neg h6] at h
                  by_cases h8 : isSimpleChar c = true
                  · rw [if_pos h8] at h
                    cases hkey : (c :: r).takeWhile isSimpleChar with
                    | nil =>
                        simp only [hkey] at h
                        injection h with h7
                        exact ⟨_, _, h7.symm⟩
                    | cons hd tl =>
                        simp only [hkey] at h
                        exact absurd h (by simp)
                  · rw [if_neg h8] at h
                    injection h with h7
                    exact ⟨_, _, h7.symm⟩

/-- A non-EOL token consumes at least one character, and is only
produced inside the source. -/
theorem nextToken_progress (source : List Char) (pos : Nat) (t : Token) (pos2 : Nat)
    (h : nextToken source pos = .ok (t, pos2)) (hne : t.type ≠ TokenType.EOL) :
    pos < source.length ∧ pos < pos2 := by
  have hdw : source.drop (pos + skipCount (source.drop pos))
      = (source.drop pos).dropWhile isSpaceChar := by
    rw [← skipCount_drop (source.drop pos), List.drop_drop]
  simp only [nextToken] at h
  cases hdw2 : (source.drop pos).dropWhile isSpaceChar with
  | nil =>
      simp only [hdw2] at h
      simp only [Except.ok.injEq, Prod.mk.injEq] at h
      rw [← h.1] at hne
      simp at hne
  | cons c r =>
      simp only [hdw2] at h
      have hne2 : source.drop (pos + skipCount (source.drop pos)) ≠ [] := by
        rw [hdw, hdw2]; simp
      have hlt : pos + skipCount (source.drop pos) < source.length := by
        by_contra hh
        exact hne2 (List.drop_eq_nil_of_le (by omega))
      by_cases h1 : c = ','
      · rw [if_pos h1] at h
        simp only [Except.ok.injEq, Prod.mk.injEq] at h
        omega
      · rw [if_neg h1] at h
        by_cases h2 : c = '.'
        · rw [if_pos h2] at h
          simp only [Except.ok.injEq, Prod.mk.injEq] at h
          omega
        · rw [if_neg h2] at h
          by_cases h3 : c = '('
          · rw [if_pos h3] at h
            simp only [Except.ok.injEq, Prod.mk.injEq] at h
            omega
          · rw [if_neg h3] at h
            by_cases h4 : c = ')'
            · rw [if_pos h4] at h
              simp only [Except.ok.injEq, Prod.mk.injEq] at h
              omega
            · rw [if_neg h4] at h
              by_cases h5 : c = '*'
              · rw [if_pos h5] at h
                simp only [Except.ok.injEq, Prod.mk.injEq] at h
                omega
              · rw [if_neg h5] at h
                by_cases h6 : c = '"'
                · rw [if_pos h6] at h
                  cases hscan : scanQuotedBody r (pos + skipCount (source.drop pos) + 1) with
                  | some endPos =>
                      simp only [hscan] at h
                      simp only [Except.ok.injEq, Prod.mk.injEq] at h
                      have hgt := scanQuotedBody_gt r
                        (pos + skipCount (source.drop pos) + 1) endPos hscan
                      omega
                  | none =>
                      simp only [hscan] at h
                      exact absurd h (by simp)
                · rw [if_neg h6] at h
                  by_cases h8 : isSimpleChar c = true
                  · rw [if_pos h8] at h
                    cases hkey : (c :: r).takeWhile isSimpleChar with
                    | nil =>
                        simp only [hkey] at h
                        exact absurd h (by simp)
                    | cons hd tl =>
                        simp only [hkey] at h
                        simp only [Except.ok.injEq, Prod.mk.injEq] at h
                        have hlen : 1 ≤ (hd :: tl).length := by simp
                        omega
                  · rw [if_neg h8] at h
                    exact absurd h (by simp)

/-- `unquote` maps the EOL token to an EOL token. -/
theorem unquote_eol (t t2 : Token) (h : unquote t = .ok t2)
    (h2 : t.type = TokenType.EOL) : t2.type = TokenType.EOL := by
  unfold unquote at h
  rw [h2] at h
  simp at h
  rw [← h]
  exact h2

/-- With sufficient fuel, every `tokenize` error is contexted. -/
theorem tokenize_error_shape (source : List Char) : ∀ (fuel pos : Nat) (e : PErr),
    source.length - pos < fuel →
    tokenize source pos fuel = .error e → ∃ p s, e = .contexted source p s := by
  intro fuel
  induction fuel with
  | zero => intro pos e hb; omega
  | succ fuel ih =>
      intro pos e hb h
      rw [tokenize] at h
      cases hnt : nextToken source pos with
      | error e2 =>
          simp only [hnt] at h
          injection h with h2
          subst h2
          exact nextToken_error_contexted source pos e2 hnt
      | ok tp =>
          obtain ⟨t, pos2⟩ := tp
          simp only [hnt] at h
          cases hu : unquote t with
          | error e2 =>
              simp only [hu] at h
              injection h with h2
              exact ⟨_, _, h2.symm⟩
          | ok t2 =>
              simp only [hu] at h
              by_cases he : t2.type = TokenType.EOL
              · rw [if_pos he] at h
                exact absurd h (by simp)
              · rw [if_neg he] at h
                have htne : t.type ≠ TokenType.EOL := by
                  intro hh
                  exact he (unquote_eol t t2 hu hh)
                have hp := nextToken_progress source pos t pos2 hnt htne
                cases hrec : tokenize source pos2 fuel with
                | ok ts =>
                    simp only [hrec] at h
                    exact absurd h (by simp)
                | error e2 =>
                    simp only [hrec] at h
                    injection h with h2
                    subst h2
                    exact ih pos2 e2 (by omega) hrec

/-- With sufficient fuel, every error of the parser loop is contexted. -/
theorem go_error_shape (tokens : List Token) (source : List Char) :
    ∀ (fuel : Nat) (pos : Nat) (state : PState) (lvl : Level) (st : Store) (e : PErr),
    2 * (tokens.length - pos) + (if state = PState.LEVEL_START then 1 else 0) < fuel →
    go tokens source fuel pos state lvl st = .error e →
    ∃ p s, e = .contexted source p s := by
  intro fuel
  induction fuel with
  | zero => intro pos state lvl st e hb; omega
  | succ fuel ih =>
      intro pos state lvl st e hb h
      rw [go] at h
      cases hdrop : tokens.drop pos with
      | nil =>
          simp only [hdrop] at h
          exact absurd h (by simp)
      | cons tok rest' =>
          have hpos : pos < tokens.length := by
            by_contra hh
            rw [List.drop_eq_nil_of_le (by omega)] at hdrop
            cases hdrop
          simp only [hdrop] at h
          cases state with
          | LEVEL_START =>
              simp at hb
              by_cases hrb : tok.type = TokenType.RBRACE
              · rw [if_pos hrb] at h
                exact ih pos .SEPARATOR lvl st e (by simp; omega) h
              · rw [if_neg hrb] at h
                exact ih pos .KEY lvl st e (by simp; omega) h
          | KEY =>
              simp at hb
              cases htt : tok.type with
              | PLAIN_KEY =>
                  try simp only [htt] at h
                  cases hak : lvl.add_key (String.mk tok.value) st with
                  | mk lvl2 st2 =>
                      simp only [hak] at h
                      exact ih (pos + 1) .SEPARATOR lvl2 st2 e (by simp; omega) h
              | WILD_CARD =>
                  try simp only [htt] at h
                  cases hak : lvl.add_any st with
                  | mk lvl2 st2 =>
                      simp only [hak] at h
                      exact ih (pos + 1) .SEPARATOR lvl2 st2 e (by simp; omega) h
              | LBRACE =>
                  try simp only [htt] at h
                  cases hak : lvl.push_level tok.pos st with
                  | mk lvl2 st2 =>
                      simp only [hak] at h
                      exact ih (pos + 1) .LEVEL_START lvl2 st2 e (by simp; omega) h
              | COMMA => try simp only [htt] at h; injection h with h2; exact ⟨_, _, h2.symm⟩
              | DOT => try simp only [htt] at h; injection h with h2; exact ⟨_, _, h2.symm⟩
              | RBRACE => try simp only [htt] at h; injection h with h2; exact ⟨_, _, h2.symm⟩
              | QUOTED_KEY => try simp only [htt] at h; injection h with h2; exact ⟨_, _, h2.symm⟩
              | EOL => try simp only [htt] at h; injection h with h2; exact ⟨_, _, h2.symm⟩
          | SEPARATOR =>
              simp at hb
              cases htt : tok.type with
              | DOT =>
                  try simp only [htt] at h
                  exact ih (pos + 1) .KEY lvl st e (by simp; omega) h
              | COMMA =>
                  try simp only [htt] at h
                  exact ih (pos + 1) .KEY lvl.new_mask st e (by simp; omega) h
              | RBRACE =>
                  try simp only [htt] at h
                  cases hpop : lvl.pop_level with
                  | none =>
                      simp only [hpop] at h
                      injection h with h2
                      exact ⟨_, _, h2.symm⟩
                  | some lvl2 =>
                      simp only [hpop] at h
                      exact ih (pos + 1) .SEPARATOR lvl2 st e (by simp; omega) h
              | PLAIN_KEY => try simp only [htt] at h; injection h with h2; exact ⟨_, _, h2.symm⟩
              | WILD_CARD => try simp only [htt] at h; injection h with h2; exact ⟨_, _, h2.symm⟩
              | LBRACE => try simp only [htt] at h; injection h with h2; exact ⟨_, _, h2.symm⟩
              | QUOTED_KEY => try simp only [htt] at h; injection h with h2; exact ⟨_, _, h2.symm⟩
              | EOL => try simp only [htt] at h; injection h with h2; exact ⟨_, _, h2.symm⟩

/-- C5 (counterexample to the claim as stated): the premature
end-of-input failure (input `"a."`) raises a bare `ParseError` with no
source position and no context snippet, unlike every other parse
error. -/
theorem C5_counterexample_end_of_mask_plain :
    parse "a." = .error (.plain "unexpected end of mask") := rfl

/-- C5 (amended): every parse error except the premature end-of-input
`ParseError("unexpected end of mask")` is a `ContextedParseError`
carrying the source and the offending position; its rendered message
appends the context, whose marked snippet holds at most 30 characters
of source plus the visual mark (31 characters in all) and always
contains the mark. -/
theorem C5_parse_errors_contexted :
    (∀ (s : List Char) (pos : Nat),
        (contextWithMark s pos).length ≤ 31 ∧ '⃞' ∈ contextWithMark s pos) ∧
    (∀ (src : List Char) (pos : Nat) (summary : String),
        (PErr.contexted src pos summary).message
          = summary ++ " " ++ contextAround src pos) ∧
    (∀ (s : String) (e : PErr), parse s = .error e →
        (∃ pos summary, e = .contexted s.data pos summary) ∨
        e = .plain "unexpected end of mask") := by
  refine ⟨?_, fun _ _ _ => rfl, ?_⟩
  · intro s pos
    constructor
    · have hlen : ∀ l : List Char, (possibleEllipsis l 30).length ≤ 30 := by
        intro l
        unfold possibleEllipsis
        split
        · rename_i hgt
          simp only [List.length_append, List.length_take, List.length_cons, List.length_nil]
          omega
        · rename_i hle
          omega
      have hE := hlen (s.drop (if pos ≥ 12 then pos - 12 else 0))
      unfold contextWithMark
      simp only [List.length_append, List.length_take, List.length_drop, List.length_cons,
        List.length_nil]
      omega
    · unfold contextWithMark
      simp
  · intro s e h
    unfold parse parseList at h
    by_cases hstrip : s.data.dropWhile isSpaceChar = []
    · rw [if_pos hstrip] at h
      exact absurd h (by simp)
    · rw [if_neg hstrip] at h
      cases htk : tokenize s.data 0 (s.data.length + 1) with
      | error e2 =>
          simp only [htk] at h
          injection h with h2
          subst h2
          exact Or.inl (tokenize_error_shape s.data (s.data.length + 1) 0 e2 (by omega) htk)
      | ok tokens =>
          simp only [htk] at h
          cases hgo : go tokens s.data (2 * tokens.length + 2) 0 .KEY
              (Level.init []).1 (Level.init []).2 with
          | error e2 =>
              simp only [hgo] at h
              injection h with h2
              subst h2
              exact Or.inl (go_error_shape tokens s.data (2 * tokens.length + 2) 0 .KEY
                (Level.init []).1 (Level.init []).2 e2 (by simp <;> omega) hgo)
          | ok out =>
              obtain ⟨state, lvlF, stF⟩ := out
              simp only [hgo] at h
              by_cases hprev : lvlF.prev.isSome = true
              · rw [if_pos hprev] at h
                injection h with h2
                exact Or.inl ⟨_, _, h2.symm⟩
              · rw [if_neg hprev] at h
                by_cases hsep : state ≠ PState.SEPARATOR
                · rw [if_pos hsep] at h
                  injection h with h2
                  exact Or.inr h2.symm
                · rw [if_neg hsep] at h
                  exact absurd h (by simp)

/-- Witness for C5 at the concrete input `"a."`: the error it raises is
the bare end-of-mask `ParseError`. -/
theorem C5_parse_errors_contexted_witness :
    parse "a." = .error (.plain "unexpected end of mask") ∧
    ((∃ pos summary,
        (PErr.plain "unexpected end of mask") = .contexted "a.".data pos summary) ∨
      (PErr.plain "unexpected end of mask") = .plain "unexpected end of mask") :=
  ⟨rfl, C5_parse_errors_contexted.2.2 "a." (.plain "unexpected end of mask") rfl⟩

/-! ### C7: canonical serialization -/

/-- `strLe` is total. -/
theorem strLe_total : ∀ a b : List Char, strLe a b = true ∨ strLe b a = true
  | [], _ => by left; simp [strLe]
  | _ :: _, [] => by right; simp [strLe]
  | c :: cs, d :: ds => by
      by_cases hcd : c = d
      · subst hcd
        simp only [strLe, if_pos rfl]
        exact strLe_total cs ds
      · rcases lt_or_gt_of_ne (show c ≠ d from hcd) with hlt | hgt
        · left
          simp only [strLe, if_neg hcd]
          simp [hlt]
        · right
          have hdc : ¬d = c := fun hh => hcd hh.symm
          simp only [strLe, if_neg hdc]
          simp [hgt]

/-- `strLe` is transitive. -/
theorem strLe_trans : ∀ a b c : List Char,
    strLe a b = true → strLe b c = true → strLe a c = true
  | [], _, _ => by intro _ _; simp [strLe]
  | x :: xs, [], _ => by intro h _; simp [strLe] at h
  | x :: xs, _ :: _, [] => by intro _ h; simp [strLe] at h
  | x :: xs, y :: ys, z :: zs => by
      intro h1 h2
      by_cases hxy : x = y
      · subst hxy
        rw [strLe, if_pos rfl] at h1
        by_cases hyz : x = z
        · subst hyz
          rw [strLe, if_pos rfl] at h2 ⊢
          exact strLe_trans xs ys zs h1 h2
        · rw [strLe, if_neg hyz] at h2 ⊢
          exact h2
      · rw [strLe, if_neg hxy] at h1
        by_cases hyz : y = z
        · subst hyz
          rw [strLe, if_neg hxy]
          exact h1
        · rw [strLe, if_neg hyz] at h2
          by_cases hxz : x = z
          · subst hxz
            simp only [decide_eq_true_eq] at h1 h2
            exact absurd (lt_trans h1 h2) (lt_irrefl x)
          · rw [strLe, if_neg hxz]
            simp only [decide_eq_true_eq] at h1 h2 ⊢
            exact lt_trans h1 h2

/-- `strLe` is antisymmetric. -/
theorem strLe_antisymm : ∀ a b : List Char,
    strLe a b = true → strLe b a = true → a = b
  | [], [] => by intro _ _; rfl
  | [], _ :: _ => by intro _ h; simp [strLe] at h
  | _ :: _, [] => by intro h _; simp [strLe] at h
  | c :: cs, d :: ds => by
      intro h1 h2
      by_cases hcd : c = d
      · subst hcd
        rw [strLe, if_pos rfl] at h1 h2
        rw [strLe_antisymm cs ds h1 h2]
      · rw [strLe, if_neg hcd] at h1
        have hdc : ¬d = c := fun hh => hcd hh.symm
        rw [strLe, if_neg hdc] at h2
        simp only [decide_eq_true_eq] at h1 h2
        exact absurd (lt_trans h1 h2) (lt_irrefl c)

/-- `strLeB` lifted facts. -/
theorem strLeB_trans (a b c : String) (h1 : strLeB a b = true) (h2 : strLeB b c = true) :
    strLeB a c = true := strLe_trans a.data b.data c.data h1 h2

theorem strLeB_total (a b : String) : (strLeB a b || strLeB b a) = true := by
  rcases strLe_total a.data b.data with h | h <;> simp [strLeB, h]

theorem string_length_zero (s : String) (h : s.length = 0) : s = "" := by
  cases s with
  | mk l =>
    cases l with
    | nil => rfl
    | cons c cs => simp [String.length] at h

theorem strLeB_antisymm (a b : String) (h1 : strLeB a b = true) (h2 : strLeB b a = true) :
    a = b := by
  have hd := strLe_antisymm a.data b.data h1 h2
  cases a
  cases b
  exact congrArg String.mk (by simpa using hd)

/-- Permutation-equal lists have the same `mergeSort` under `strLeB`:
the sort is the unique sorted arrangement. -/
theorem mergeSort_eq_of_perm (l1 l2 : List String) (h : l1.Perm l2) :
    l1.mergeSort strLeB = l2.mergeSort strLeB := by
  have hs1 := @List.sorted_mergeSort _ strLeB
    (fun a b c => strLeB_trans a b c) (fun a b => strLeB_total a b) l1
  have hs2 := @List.sorted_mergeSort _ strLeB
    (fun a b c => strLeB_trans a b c) (fun a b => strLeB_total a b) l2
  have hp : (l1.mergeSort strLeB).Perm (l2.mergeSort strLeB) :=
    ((l1.mergeSort_perm strLeB).trans h).trans (l2.mergeSort_perm strLeB).symm
  haveI : IsAntisymm String (fun a b => strLeB a b = true) :=
    ⟨fun a b => strLeB_antisymm a b⟩
  exact List.eq_of_perm_of_sorted hp hs1 hs2

/-- `marshalFields` is a map over the entries. -/
theorem marshalFields_map : ∀ fp : List (FieldKey × Mask),
    Mask.marshalFields fp
      = fp.map (fun p => Mask.appendEntry (Mask.keyMarshal p.1) (Mask.marshal_aux p.2)) := by
  intro fp
  induction fp with
  | nil => simp [Mask.marshalFields]
  | cons e rest ih =>
      obtain ⟨k, v⟩ := e
      simp [Mask.marshalFields, ih]

/-- A nonempty key yields a nonempty serialized branch. -/
theorem appendEntry_ne (key : String) (hk : key ≠ "") (p : Nat × String) :
    Mask.appendEntry key p ≠ "" := by
  have hkl : 0 < key.length := by
    cases hl : key.length with
    | zero => exact absurd (string_length_zero key hl) hk
    | succ n => omega
  unfold Mask.appendEntry
  split
  · exact hk
  · split
    · intro hcontra
      have := congrArg String.length hcontra
      simp [String.length_append] at this
      omega
    · intro hcontra
      have := congrArg String.length hcontra
      simp [String.length_append] at this
      omega

/-- `FieldKey.marshal` output is never empty. -/
theorem keyMarshal_ne (k : FieldKey) : Mask.keyMarshal k ≠ "" := by
  unfold Mask.keyMarshal
  split
  · rename_i hps
    intro hcontra
    subst hcontra
    exact absurd hps (by decide)
  · intro hcontra
    have := congrArg String.data hcontra
    simp [jsonDumpsAscii, jsonDumpsAsciiList] at this

/-- Joined nonempty items are nonempty. -/
theorem joinComma_ne : ∀ l : List String, l ≠ [] → (∀ s ∈ l, s ≠ "") →
    Mask.joinComma l ≠ ""
  | [], h, _ => absurd rfl h
  | [s], _, hall => by
      simp only [Mask.joinComma]
      exact hall s (by simp)
  | s :: t :: rest, _, hall => by
      simp only [Mask.joinComma]
      intro hcontra
      have := congrArg String.length hcontra
      simp [String.length_append] at this
      have hs := hall s (by simp)
      have hz : s.length = 0 := by omega
      exact hs (string_length_zero s hz)

/-- Remove the first binding of a key (used to reason about permutation
of the two sides of `Mask.__eq__`). -/
def eraseKey : List (FieldKey × Mask) → FieldKey → List (FieldKey × Mask)
  | [], _ => []
  | (k', v') :: rest, k => if k' = k then rest else (k', v') :: eraseKey rest k

/-- A list with a binding for `k` is a permutation of that binding
consed onto the list without it. -/
theorem perm_cons_eraseKey : ∀ (fp : List (FieldKey × Mask)) (k : FieldKey) (w : Mask),
    lookupFP fp k = some w → fp.Perm ((k, w) :: eraseKey fp k) := by
  intro fp
  induction fp with
  | nil => intro k w h; simp [lookupFP] at h
  | cons e rest ih =>
      obtain ⟨k', v'⟩ := e
      intro k w h
      rw [lookupFP] at h
      by_cases hk : k' = k
      · rw [if_pos hk] at h
        injection h with hv
        subst hk
        subst hv
        rw [eraseKey, if_pos rfl]
      · rw [if_neg hk] at h
        rw [eraseKey, if_neg hk]
        exact ((ih k w h).cons (k', v')).trans (List.Perm.swap (k, w) (k', v') (eraseKey rest k))

/-- Erasing one key leaves lookups of other keys unchanged. -/
theorem eraseKey_lookup_ne : ∀ (fp : List (FieldKey × Mask)) (k k' : FieldKey), k' ≠ k →
    lookupFP (eraseKey fp k) k' = lookupFP fp k' := by
  intro fp
  induction fp with
  | nil => intro k k' _; simp [eraseKey]
  | cons e rest ih =>
      obtain ⟨k0, v0⟩ := e
      intro k k' hne
      rw [eraseKey]
      by_cases hk : k0 = k
      · rw [if_pos hk, lookupFP, if_neg (by rw [hk]; exact fun hh => hne hh.symm)]
      · rw [if_neg hk, lookupFP, lookupFP]
        by_cases hk' : k0 = k'
        · rw [if_pos hk', if_pos hk']
        · rw [if_neg hk', if_neg hk']
          exact ih k k' hne

/-- Erasing preserves key uniqueness. -/
theorem eraseKey_noDup : ∀ (fp : List (FieldKey × Mask)) (k : FieldKey),
    noDupKeys fp = true → noDupKeys (eraseKey fp k) = true := by
  intro fp
  induction fp with
  | nil => intro k _; simp [eraseKey, noDupKeys]
  | cons e rest ih =>
      obtain ⟨k0, v0⟩ := e
      intro k hnd
      rw [noDupKeys, Bool.and_eq_true] at hnd
      rw [eraseKey]
      by_cases hk : k0 = k
      · rw [if_pos hk]
        exact hnd.2
      · rw [if_neg hk, noDupKeys, Bool.and_eq_true]
        refine ⟨?_, ih k hnd.2⟩
        have h0 := Option.isNone_iff_eq_none.mp hnd.1
        by_cases hkk : k0 = k
        · exact absurd hkk hk
        · rw [eraseKey_lookup_ne rest k k0 (fun hh => hk hh)]
          rw [h0]
          rfl

/-- Erasing preserves well-formedness of the entries. -/
theorem eraseKey_wfFields : ∀ (fp : List (FieldKey × Mask)) (k : FieldKey),
    Mask.wfFields fp = true → Mask.wfFields (eraseKey fp k) = true := by
  intro fp
  induction fp with
  | nil => intro k _; simp [eraseKey, Mask.wfFields]
  | cons e rest ih =>
      obtain ⟨k0, v0⟩ := e
      intro k hwf
      rw [Mask.wfFields, Bool.and_eq_true] at hwf
      rw [eraseKey]
      by_cases hk : k0 = k
      · rw [if_pos hk]
        exact hwf.2
      · rw [if_neg hk, Mask.wfFields, Bool.and_eq_true]
        exact ⟨hwf.1, ih k hwf.2⟩

/-- Erasing a present key shortens the list by one. -/
theorem eraseKey_length : ∀ (fp : List (FieldKey × Mask)) (k : FieldKey) (w : Mask),
    lookupFP fp k = some w → fp.length = (eraseKey fp k).length + 1 := by
  intro fp
  induction fp with
  | nil => intro k w h; simp [lookupFP] at h
  | cons e rest ih =>
      obtain ⟨k0, v0⟩ := e
      intro k w h
      rw [lookupFP] at h
      rw [eraseKey]
      by_cases hk : k0 = k
      · rw [if_pos hk]
        simp
      · rw [if_neg hk] at h ⊢
        simp only [List.length_cons]
        rw [ih k w h]

/-- A value found in a well-formed entry list is well-formed. -/
theorem wfFields_lookup : ∀ (fp : List (FieldKey × Mask)) (k : FieldKey) (w : Mask),
    lookupFP fp k = some w → Mask.wfFields fp = true → Mask.wfMask w = true := by
  intro fp
  induction fp with
  | nil => intro k w h; simp [lookupFP] at h
  | cons e rest ih =>
      obtain ⟨k0, v0⟩ := e
      intro k w h hwf
      rw [Mask.wfFields, Bool.and_eq_true] at hwf
      rw [lookupFP] at h
      by_cases hk : k0 = k
      · rw [if_pos hk] at h
        injection h with hv
        rw [← hv]
        exact hwf.1
      · rw [if_neg hk] at h
        exact ih k w h hwf.2

/-- Unfolding equation for `meqFields` on a cons cell. -/
theorem meqFields_cons (k : FieldKey) (v : Mask) (rest fp2 : List (FieldKey × Mask)) :
    Mask.meqFields ((k, v) :: rest) fp2 =
      (match lookupFP fp2 k with
       | none => false
       | some w => Mask.maskEq v w && Mask.meqFields rest fp2) := by
  cases hlo : lookupFP fp2 k <;> simp [Mask.meqFields, hlo]

/-- `meqFields` only consults the keys of its first argument, so a key
absent from it can be erased from the second. -/
theorem meqFields_eraseKey : ∀ (rest fp2 : List (FieldKey × Mask)) (k : FieldKey),
    lookupFP rest k = none → Mask.meqFields rest fp2 = true →
    Mask.meqFields rest (eraseKey fp2 k) = true := by
  intro rest
  induction rest with
  | nil => intro fp2 k _ _; simp [Mask.meqFields]
  | cons e tail ih =>
      obtain ⟨k0, v0⟩ := e
      intro fp2 k hnone hmeq
      rw [lookupFP] at hnone
      by_cases hk : k0 = k
      · rw [if_pos hk] at hnone
        cases hnone
      · rw [if_neg hk] at hnone
        rw [meqFields_cons] at hmeq ⊢
        rw [eraseKey_lookup_ne fp2 k k0 (fun hh => hk hh)]
        cases hlo : lookupFP fp2 k0 with
        | none => rw [hlo] at hmeq; cases hmeq
        | some w =>
            rw [hlo] at hmeq
            simp only [Bool.and_eq_true] at hmeq ⊢
            exact ⟨hmeq.1, ih fp2 k hnone hmeq.2⟩

/-- The unsorted serialized sibling branches of a mask: the wildcard
branch (if any) followed by the named entries. -/
def marshalItems : Mask → List String
  | .mk none fp => Mask.marshalFields fp
  | .mk (some x) fp => Mask.appendEntry "*" (Mask.marshal_aux x) :: Mask.marshalFields fp

/-- `_marshal` always returns the sorted items, their count, and their
comma-join. -/
theorem marshal_aux_items : ∀ m : Mask,
    Mask.marshal_aux m = (((marshalItems m).mergeSort strLeB).length,
      Mask.joinComma ((marshalItems m).mergeSort strLeB)) := by
  intro m
  match m with
  | .mk none [] =>
      simp [Mask.marshal_aux, marshalItems, Mask.marshalFields, Mask.joinComma, List.mergeSort]
  | .mk none (e :: fp) => simp [Mask.marshal_aux, marshalItems]
  | .mk (some x) fp => simp [Mask.marshal_aux, marshalItems]

/-- Serialized named-field branches are nonempty strings. -/
theorem marshalFields_ne : ∀ (fp : List (FieldKey × Mask)) (s : String),
    s ∈ Mask.marshalFields fp → s ≠ "" := by
  intro fp
  induction fp with
  | nil => intro s hs; simp [Mask.marshalFields] at hs
  | cons e rest ih =>
      obtain ⟨k, v⟩ := e
      intro s hs
      simp only [Mask.marshalFields, List.mem_cons] at hs
      cases hs with
      | inl h => rw [h]; exact appendEntry_ne (Mask.keyMarshal k) (keyMarshal_ne k) _
      | inr h => exact ih s h

/-- All serialized sibling branches are nonempty strings. -/
theorem marshalItems_ne : ∀ (m : Mask) (s : String), s ∈ marshalItems m → s ≠ "" := by
  intro m s hs
  match m with
  | .mk none fp => exact marshalFields_ne fp s hs
  | .mk (some x) fp =>
      simp only [marshalItems, List.mem_cons] at hs
      cases hs with
      | inl h => rw [h]; exact appendEntry_ne "*" (by decide) _
      | inr h => exact marshalFields_ne fp s h

/-- When a mask has at least one top-level segment, its serialization is
nonempty. -/
theorem marshal_aux_snd_ne (sub : Mask) (hc : 1 ≤ (Mask.marshal_aux sub).1) :
    (Mask.marshal_aux sub).2 ≠ "" := by
  rw [marshal_aux_items] at hc ⊢
  simp only at hc ⊢
  apply joinComma_ne
  · intro hnil
    rw [hnil] at hc
    simp at hc
  · intro s hs
    have hmem : s ∈ marshalItems sub :=
      (((marshalItems sub).mergeSort_perm strLeB).mem_iff).mp hs
    exact marshalItems_ne sub s hmem

/-- The two halves of the canonicity claim, proved together by strong
induction: equal (in the sense of `Mask.__eq__`) well-formed masks have
identical `_marshal` output, via permutation of their serialized
branches. -/
theorem C7_aux : ∀ n : Nat,
    (∀ m1 m2 : Mask, sizeOf m1 ≤ n → Mask.wfMask m1 = true → Mask.wfMask m2 = true →
        Mask.maskEq m1 m2 = true → Mask.marshal_aux m1 = Mask.marshal_aux m2) ∧
    (∀ fp1 fp2 : List (FieldKey × Mask), sizeOf fp1 ≤ n →
        noDupKeys fp1 = true → noDupKeys fp2 = true →
        Mask.wfFields fp1 = true → Mask.wfFields fp2 = true →
        fp1.length = fp2.length → Mask.meqFields fp1 fp2 = true →
        (Mask.marshalFields fp1).Perm (Mask.marshalFields fp2)) := by
  intro n
  induction n using Nat.strong_induction_on with
  | _ n ih =>
    constructor
    · intro m1 m2 hsz h1 h2 heq
      match m1, m2 with
      | .mk a1 fp1, .mk a2 fp2 =>
        cases a1 with
        | none =>
            cases a2 with
            | none =>
                simp only [Mask.maskEq, Bool.and_eq_true, beq_iff_eq] at heq
                obtain ⟨⟨-, hlen⟩, hmf⟩ := heq
                simp only [Mask.wfMask, Bool.and_eq_true] at h1 h2
                have hszf : sizeOf fp1 ≤ n - 1 := by simp at hsz; omega
                have hn : n - 1 < n := by simp at hsz; omega
                have hperm := (ih (n - 1) hn).2 fp1 fp2 hszf h1.1 h2.1 h1.2 h2.2 hlen hmf
                rw [marshal_aux_items, marshal_aux_items]
                simp only [marshalItems]
                rw [mergeSort_eq_of_perm _ _ hperm]
            | some x2 => simp [Mask.maskEq] at heq
        | some x1 =>
            cases a2 with
            | none => simp [Mask.maskEq] at heq
            | some x2 =>
                simp only [Mask.maskEq, Bool.and_eq_true, beq_iff_eq] at heq
                obtain ⟨⟨hx, hlen⟩, hmf⟩ := heq
                simp only [Mask.wfMask, Bool.and_eq_true] at h1 h2
                have hszx : sizeOf x1 ≤ n - 1 := by simp at hsz; omega
                have hszf : sizeOf fp1 ≤ n - 1 := by simp at hsz; omega
                have hn : n - 1 < n := by simp at hsz; omega
                have hxeq := (ih (n - 1) hn).1 x1 x2 hszx h1.1.1 h2.1.1 hx
                have hperm := (ih (n - 1) hn).2 fp1 fp2 hszf h1.1.2 h2.1.2 h1.2 h2.2
                  hlen hmf
                rw [marshal_aux_items, marshal_aux_items]
                have hip : marshalItems (Mask.mk (some x1) fp1)
                    |>.Perm (marshalItems (Mask.mk (some x2) fp2)) := by
                  simp only [marshalItems, hxeq]
                  exact hperm.cons _
                rw [mergeSort_eq_of_perm _ _ hip]
    · intro fp1 fp2 hsz hnd1 hnd2 hwf1 hwf2 hlen hmf
      match fp1 with
      | [] =>
          cases fp2 with
          | nil => rfl
          | cons e2 rest2 => simp at hlen
      | (k, v) :: rest =>
          rw [meqFields_cons] at hmf
          cases hlo : lookupFP fp2 k with
          | none => rw [hlo] at hmf; cases hmf
          | some w =>
              rw [hlo] at hmf
              rw [Bool.and_eq_true] at hmf
              rw [noDupKeys, Bool.and_eq_true] at hnd1
              rw [Mask.wfFields, Bool.and_eq_true] at hwf1
              have hw : Mask.wfMask w = true := wfFields_lookup fp2 k w hlo hwf2
              have hn : n - 1 < n := by simp at hsz; omega
              have hszv : sizeOf v ≤ n - 1 := by simp at hsz; omega
              have hszr : sizeOf rest ≤ n - 1 := by simp at hsz; omega
              have hveq := (ih (n - 1) hn).1 v w hszv hwf1.1 hw hmf.1
              have hlen2 : rest.length = (eraseKey fp2 k).length := by
                have := eraseKey_length fp2 k w hlo
                simp only [List.length_cons] at hlen
                omega
              have hperm_rest := (ih (n - 1) hn).2 rest (eraseKey fp2 k) hszr hnd1.2
                (eraseKey_noDup fp2 k hnd2) hwf1.2 (eraseKey_wfFields fp2 k hwf2) hlen2
                (meqFields_eraseKey rest fp2 k (Option.isNone_iff_eq_none.mp hnd1.1) hmf.2)
              have hfp2 : (Mask.marshalFields fp2).Perm
                  (Mask.appendEntry (Mask.keyMarshal k) (Mask.marshal_aux w)
                    :: Mask.marshalFields (eraseKey fp2 k)) := by
                have hp := perm_cons_eraseKey fp2 k w hlo
                have := hp.map (fun p => Mask.appendEntry (Mask.keyMarshal p.1)
                  (Mask.marshal_aux p.2))
                rw [marshalFields_map fp2, marshalFields_map (eraseKey fp2 k)]
                simpa using this
              rw [Mask.marshalFields]
              rw [hveq]
              exact (hperm_rest.cons _).trans hfp2.symm

/-- C7: `_marshal` is canonical and deterministic: an empty sub-mask
serializes as just the key, a single-segment sub-mask as `key.rest`, a
multi-segment sub-mask as `key.(rest)` (the wildcard branch using the
literal key `*` in the item list); the serialized sibling branches are
sorted lexicographically before being comma-joined; and the output does
not depend on construction order: masks equal under `Mask.__eq__`
marshal to the same string. -/
theorem C7_marshal_canonical :
    (∀ (key : String) (sub : Mask), sub.is_empty = true →
        Mask.appendEntry key (Mask.marshal_aux sub) = key) ∧
    (∀ (key : String) (sub : Mask), (Mask.marshal_aux sub).1 = 1 →
        Mask.appendEntry key (Mask.marshal_aux sub)
          = key ++ "." ++ (Mask.marshal_aux sub).2) ∧
    (∀ (key : String) (sub : Mask), 2 ≤ (Mask.marshal_aux sub).1 →
        Mask.appendEntry key (Mask.marshal_aux sub)
          = key ++ ".(" ++ (Mask.marshal_aux sub).2 ++ ")") ∧
    (∀ m : Mask, Mask.marshal m = Mask.joinComma ((marshalItems m).mergeSort strLeB) ∧
        List.Pairwise (fun a b => strLeB a b = true) ((marshalItems m).mergeSort strLeB)) ∧
    (∀ m1 m2 : Mask, Mask.wfMask m1 = true → Mask.wfMask m2 = true →
        Mask.maskEq m1 m2 = true → Mask.marshal m1 = Mask.marshal m2) := by
  refine ⟨?_, ?_, ?_, ?_, ?_⟩
  · intro key sub hemp
    match sub, hemp with
    | .mk none [], _ => simp [Mask.marshal_aux, Mask.appendEntry]
  · intro key sub hc
    have hne := marshal_aux_snd_ne sub (by omega)
    rw [Mask.appendEntry, if_neg hne, if_pos hc]
  · intro key sub hc
    have hne := marshal_aux_snd_ne sub (by omega)
    have hc1 : ¬(Mask.marshal_aux sub).1 = 1 := by omega
    rw [Mask.appendEntry, if_neg hne, if_neg hc1]
  · intro m
    constructor
    · rw [Mask.marshal, marshal_aux_items]
    · exact @List.sorted_mergeSort _ strLeB
        (fun a b c => strLeB_trans a b c) (fun a b => strLeB_total a b) (marshalItems m)
  · intro m1 m2 h1 h2 heq
    rw [Mask.marshal, Mask.marshal, (C7_aux (sizeOf m1)).1 m1 m2 le_rfl h1 h2 heq]

/-- Witness for C7 at concrete inputs: an empty sub-mask serializes to
its key alone, and two masks with the same two keys inserted in opposite
orders marshal identically. -/
theorem C7_marshal_canonical_witness :
    ((Mask.mk none [] : Mask).is_empty = true ∧
      Mask.appendEntry "k" (Mask.marshal_aux (Mask.mk none [])) = "k") ∧
    (Mask.wfMask (Mask.mk none [("a", .mk none []), ("b", .mk none [])]) = true ∧
      Mask.wfMask (Mask.mk none [("b", .mk none []), ("a", .mk none [])]) = true ∧
      Mask.maskEq (Mask.mk none [("a", .mk none []), ("b", .mk none [])])
        (Mask.mk none [("b", .mk none []), ("a", .mk none [])]) = true ∧
      Mask.marshal (Mask.mk none [("a", .mk none []), ("b", .mk none [])])
        = Mask.marshal (Mask.mk none [("b", .mk none []), ("a", .mk none [])])) := by
  refine ⟨⟨rfl, C7_marshal_canonical.1 "k" (Mask.mk none []) rfl⟩, ?_, ?_, ?_, ?_⟩
  · simp [Mask.wfMask, Mask.wfFields, noDupKeys, lookupFP]
  · simp [Mask.wfMask, Mask.wfFields, noDupKeys, lookupFP]
  · simp [Mask.maskEq, Mask.meqFields, lookupFP]
  · exact C7_marshal_canonical.2.2.2.2
      (Mask.mk none [("a", .mk none []), ("b", .mk none [])])
      (Mask.mk none [("b", .mk none []), ("a", .mk none [])])
      (by simp [Mask.wfMask, Mask.wfFields, noDupKeys, lookupFP])
      (by simp [Mask.wfMask, Mask.wfFields, noDupKeys, lookupFP])
      (by simp [Mask.maskEq, Mask.meqFields, lookupFP])

end Claims

end Fieldmask
